import Mathlib

/-!
Verification development for the `gamal` retrieval-augmented answering
assistant (single source file `gamal.js`).

The JavaScript source is shallowly embedded: strings are modelled as
`List Char` (`Str`), each JS helper becomes a computable Lean function
translated line by line from the source, stateful pipeline code becomes
explicit state passing with `Except` for thrown errors, and the external
HTTP services (LLM chat endpoint, search endpoint) become oracle
functions supplied as parameters.
-/

namespace Gamal

/-- Strings are modelled as lists of characters. -/
abbrev Str := List Char

/-- Shorthand turning a Lean string literal into the `Str` model. -/
def str (s : String) : Str := s.data

/-- JS whitespace for `String.prototype.trim` (the characters that occur in
this development: space, tab, newline, carriage return, vertical tab,
form feed). -/
def isWs (c : Char) : Bool :=
  c = ' ' || c = '\t' || c = '\n' || c = '\x0d' || c = '\x0b' || c = '\x0c'

/-- Leading-whitespace removal (half of JS `trim()`). -/
def trimL (s : Str) : Str := s.dropWhile isWs

/-- Trailing-whitespace removal (JS `trimRight()` / `trimEnd()`). -/
def trimR (s : Str) : Str := (s.reverse.dropWhile isWs).reverse

/-- JS `s.trim()`: whitespace removed from both ends. -/
def trim (s : Str) : Str := trimL (trimR s)

/-- First line of a string: what `s.split('\n').shift()` returns. -/
def firstLine (s : Str) : Str := s.takeWhile (fun c => c ≠ '\n')

/-- JS `s.split('\n')` (an empty string yields one empty piece, a trailing
newline yields a trailing empty piece). -/
def splitNl : Str → List Str
  | [] => [[]]
  | c :: rest =>
    if c = '\n' then [] :: splitNl rest
    else
      match splitNl rest with
      | [] => [[c]]
      | l :: ls => (c :: l) :: ls

/-- JS `Array.prototype.join('\n')`. -/
def joinNl (xs : List Str) : Str := List.intercalate [ '\n' ] xs

/-- The pattern `pat` occurs in `s` at index `i`. -/
def OccursAt (pat s : Str) (i : Nat) : Prop := pat <+: s.drop i

instance (pat s : Str) (i : Nat) : Decidable (OccursAt pat s i) := by
  unfold OccursAt; infer_instance

/-- The pattern `pat` occurs somewhere in `s`. -/
def OccursIn (pat s : Str) : Prop := ∃ i, OccursAt pat s i

/-- Boolean occurrence test. -/
def occursB (pat : Str) : Str → Bool
  | [] => pat.isPrefixOf []
  | c :: rest => pat.isPrefixOf (c :: rest) || occursB pat rest

/-- Search downward from index `i` for the last occurrence of `pat`
(helper for `lastIndexOf`). -/
def lastIdxFrom (pat s : Str) : Nat → Option Nat
  | 0 => if pat.isPrefixOf s then some 0 else none
  | i + 1 =>
    if pat.isPrefixOf (s.drop (i + 1)) then some (i + 1) else lastIdxFrom pat s i

/-- JS `s.lastIndexOf(pat)`, with `none` standing for `-1`. -/
def lastIndexOf (pat s : Str) : Option Nat := lastIdxFrom pat s s.length

/-- First occurrence index of `pat` in `s` (helper for `replaceFirst`). -/
def indexOf? (pat : Str) : Str → Option Nat
  | [] => if pat.isPrefixOf [] then some 0 else none
  | c :: rest =>
    if pat.isPrefixOf (c :: rest) then some 0
    else (indexOf? pat rest).map (· + 1)

/-- JS `s.replace(pat, rep)` for a plain (non-regex) pattern: the first
occurrence only is replaced. -/
def replaceFirst (pat rep s : Str) : Str :=
  match indexOf? pat s with
  | none => s
  | some i => s.take i ++ rep ++ s.drop (i + pat.length)

/-! ## The labelled-field codec (`deconstruct` / `construct`) -/

/-- The parsed key-value record the codec produces (`parts` in the source:
a JS object whose keys are the lowercased markers). -/
structure Parts where
  inquiry : Option Str := none
  tool : Option Str := none
  language : Option Str := none
  thought : Option Str := none
  keyphrases : Option Str := none
  observation : Option Str := none
  topic : Option Str := none
deriving Repr, DecidableEq

/-- `PREDEFINED_KEYS` from the source. -/
def PREDEFINED_KEYS : List Str :=
  [str "INQUIRY", str "TOOL", str "LANGUAGE", str "THOUGHT",
   str "KEYPHRASES", str "OBSERVATION", str "TOPIC"]

/-- JS `parts[marker.toLowerCase()] = v`. -/
def setKey (p : Parts) (marker : Str) (v : Str) : Parts :=
  if marker = str "INQUIRY" then { p with inquiry := some v }
  else if marker = str "TOOL" then { p with tool := some v }
  else if marker = str "LANGUAGE" then { p with language := some v }
  else if marker = str "THOUGHT" then { p with thought := some v }
  else if marker = str "KEYPHRASES" then { p with keyphrases := some v }
  else if marker = str "OBSERVATION" then { p with observation := some v }
  else if marker = str "TOPIC" then { p with topic := some v }
  else p

/-- JS `kv[key.toLowerCase()]`. -/
def getKey (p : Parts) (marker : Str) : Option Str :=
  if marker = str "INQUIRY" then p.inquiry
  else if marker = str "TOOL" then p.tool
  else if marker = str "LANGUAGE" then p.language
  else if marker = str "THOUGHT" then p.thought
  else if marker = str "KEYPHRASES" then p.keyphrases
  else if marker = str "OBSERVATION" then p.observation
  else if marker = str "TOPIC" then p.topic
  else none

/-- The loop body of `deconstruct`: for each marker (iterated from the last
to the first), find its last occurrence in the remaining prefix `s`, take the
first line of the trimmed tail as its value, and truncate `s` before it. -/
def deconstructLoop : List Str → Str → Parts → Parts
  | [], _, p => p
  | m :: ms, s, p =>
    match lastIndexOf (m ++ [':']) s with
    | none => deconstructLoop ms s p
    | some pos =>
      let substr := trim (s.drop (pos + m.length + 1))
      let value := firstLine substr
      deconstructLoop ms (s.take pos) (setKey p m value)

/-- `deconstruct` from the source (with the default marker list
`PREDEFINED_KEYS`, the only way the repository calls it): anchor on the last
occurrence of `TOPIC:`, whose value runs to the end of the text; then scan
the preceding markers from last to first. -/
def deconstruct (text : Str) : Parts :=
  let anchor := str "TOPIC"
  match lastIndexOf (anchor ++ [':']) text with
  | none => {}
  | some start =>
    let p0 : Parts :=
      { topic := some (trim (replaceFirst (anchor ++ [':']) [] (text.drop start))) }
    deconstructLoop PREDEFINED_KEYS.reverse (text.take start) p0

/-- JS truthiness of a looked-up value (`kv[key.toLowerCase()]` in a filter:
absent and empty strings are falsy). -/
def truthy : Option Str → Bool
  | none => false
  | some v => v ≠ []

/-- `construct` from the source: one `MARKER: value` line per predefined key
whose value is present and non-empty, joined with newlines. -/
def construct (kv : Parts) : Str :=
  joinNl (((PREDEFINED_KEYS.filter (fun k => truthy (getKey kv k))).map
    (fun k => k ++ str ": " ++ (getKey kv k).getD [])))

/-- `breakdown` from the source: parse `hint + completion`; when no topic was
found (or it is empty), re-parse with a synthetic `TOPIC: general knowledge.`
line appended. -/
def breakdown (hint completion : Str) : Parts :=
  let text := hint ++ completion
  let result := deconstruct text
  match result.topic with
  | some t => if t = [] then deconstruct (text ++ str "\nTOPIC: general knowledge.") else result
  | none => deconstruct (text ++ str "\nTOPIC: general knowledge.")

/-! ## The streaming chat client (`chat`, streaming path)

The streaming loop of `chat` reads chunks, splits each decoded chunk at
newlines, and runs every piece through a line handler with a carry-over
buffer.  The inner `parse` helper distinguishes three JS outcomes:
`null` (not a `data: ` line, or `JSON.parse`/destructuring failed),
`undefined` (a well-formed frame whose `delta` has no `content`), and the
content string itself.  `JSON.parse` plus the
`choices[0].delta.content` extraction is modelled by an exact decoder for
the frame sublanguage the LLM endpoint emits
(`{"choices":[{"delta":{"content":"…"}}]}` and the content-less
`{"choices":[{"delta":{}}]}`); on every string arising from such frames or
their split-induced fragments the decoder agrees with `JSON.parse`. -/

/-- Outcome of the `parse` helper inside the streaming loop of `chat`. -/
inductive PR where
  | null
  | undef
  | content (s : Str)
deriving Repr, DecidableEq

/-- The fixed JSON text preceding the content string in a delta frame. -/
def PRE : Str := str "\x7b\"choices\":[\x7b\"delta\":\x7b\"content\":\""

/-- The fixed JSON text following the content string in a delta frame. -/
def SUF : Str := str "\"\x7d\x7d]\x7d"

/-- The payload of a delta frame whose `delta` object has no `content`. -/
def emptyPayload : Str := str "\x7b\"choices\":[\x7b\"delta\":\x7b\x7d\x7d]\x7d"

/-- JSON string-body escaping for the characters this development uses
(quote, backslash, newline; all other characters are carried verbatim). -/
def escapeBody : Str → Str
  | [] => []
  | c :: rest =>
    (if c = '"' then ['\\', '"']
     else if c = '\\' then ['\\', '\\']
     else if c = '\n' then ['\\', 'n']
     else [c]) ++ escapeBody rest

/-- JSON string-body decoding, inverse to `escapeBody`; `none` on a body
`JSON.parse` would reject (bare quote, dangling or unknown escape). -/
def decodeBody : Str → Option Str
  | [] => some []
  | c :: rest =>
    if c = '\\' then
      match rest with
      | [] => none
      | e :: rest' =>
        if e = '"' then (decodeBody rest').map (fun t => '"' :: t)
        else if e = '\\' then (decodeBody rest').map (fun t => '\\' :: t)
        else if e = 'n' then (decodeBody rest').map (fun t => '\n' :: t)
        else none
    else if c = '"' then none
    else (decodeBody rest).map (fun t => c :: t)

/-- `JSON.parse(payload)` followed by the `choices[0].delta.content`
extraction, on the frame sublanguage (see the section comment). -/
def decodePayload (p : Str) : PR :=
  if p = emptyPayload then .undef
  else if PRE.isPrefixOf p then
    let r := p.drop PRE.length
    if SUF.isSuffixOf r ∧ PRE.length + SUF.length ≤ p.length then
      match decodeBody (r.take (r.length - SUF.length)) with
      | some c => .content c
      | none => .null
    else .null
  else .null

/-- The `parse` helper of the streaming loop: only lines whose first six
characters are `data: ` carry a payload. -/
def parse (line : Str) : PR :=
  if line.take 6 = str "data: " then decodePayload (line.drop 6) else .null

/-- The literal terminator line. -/
def doneLine : Str := str "data: [DONE]"

/-- State of the streaming loop: the answer accumulated so far, the
carry-over buffer, and the ordered handler (sink) emissions. -/
structure ChatState where
  answer : Str := []
  buffer : Str := []
  emits : List Str := []
deriving Repr, DecidableEq

/-- The inner `for` loop of the streaming path over the pieces of one
decoded chunk: prepend the carry-over buffer, drop SSE comments, stop at
`data: [DONE]` (skipping the rest of this chunk only), buffer lines that do
not parse, and accumulate deltas (trimming the first one). -/
def processLines (st : ChatState) : List Str → ChatState
  | [] => st
  | p :: ps =>
    let line := st.buffer ++ p
    if line.head? = some ':' then processLines { st with buffer := [] } ps
    else if line = doneLine then st
    else if line.length > 0 then
      match parse line with
      | .null => processLines { st with buffer := line } ps
      | .undef => processLines st ps
      | .content s =>
        if s.length > 0 then
          if st.answer.length < 1 then
            let leading := trim s
            let ems := st.emits ++ (if leading.length > 0 then [leading] else [])
            processLines { answer := leading, buffer := [], emits := ems } ps
          else
            processLines { answer := st.answer ++ s, buffer := [], emits := st.emits ++ [s] } ps
        else processLines st ps
    else processLines st ps

/-- One `reader.read()` iteration of the streaming loop: decode the chunk,
split at newlines, process the pieces. -/
def feedChunk (st : ChatState) (chunk : Str) : ChatState :=
  processLines st (splitNl chunk)

/-- The whole streaming loop over a sequence of read chunks. -/
def feedChunks (chunks : List Str) : ChatState :=
  chunks.foldl feedChunk {}

/-- A frame of an SSE transcript: a delta frame carrying a content string,
or a well-formed frame without content (keep-alive / role-only). -/
inductive Frame where
  | delta (c : Str)
  | empty
deriving Repr, DecidableEq

/-- The full line (without its newline) carrying a frame. -/
def frameBody : Frame → Str
  | .delta c => str "data: " ++ PRE ++ escapeBody c ++ SUF
  | .empty => str "data: " ++ emptyPayload

/-- A valid SSE transcript: one line per frame, then the terminator line,
every line newline-terminated. -/
def transcript (fs : List Frame) : Str :=
  (fs.map (fun f => frameBody f ++ ['\n'])).flatten ++ doneLine ++ ['\n']

/-- Reference accumulation of one delta (answer so far, emissions so far):
what lines 144–153 of the source do to a successfully parsed delta. -/
def accumDelta : Str × List Str → Str → Str × List Str
  | (ans, ems), c =>
    if c = [] then (ans, ems)
    else if ans = [] then
      let l := trim c
      (l, ems ++ (if l = [] then [] else [l]))
    else (ans ++ c, ems ++ [c])

/-- The contents of the delta frames of a transcript, in order. -/
def deltas (fs : List Frame) : List Str :=
  fs.filterMap (fun f => match f with | .delta c => some c | .empty => none)

/-- Reference answer for a delta sequence. -/
def specAnswer (cs : List Str) : Str := (cs.foldl accumDelta ([], [])).1

/-- Reference emission sequence for a delta sequence. -/
def specEmits (cs : List Str) : List Str := (cs.foldl accumDelta ([], [])).2

/-- The text of a newline-terminated line sequence. -/
def linesText (ls : List Str) : Str := (ls.map (fun l => l ++ ['\n'])).flatten

/-! ## Infrastructure lemmas for the streaming machine -/

theorem splitNl_nlfree {s : Str} (h : '\n' ∉ s) : splitNl s = [s] := by
  induction s with
  | nil => rfl
  | cons c rest ih =>
    have hc : c ≠ '\n' := fun hc => h (hc ▸ List.mem_cons_self c rest)
    have hr : '\n' ∉ rest := fun hm => h (List.mem_cons_of_mem c hm)
    simp only [splitNl, if_neg hc, ih hr]

theorem splitNl_append_cons {x : Str} (y : Str) (h : '\n' ∉ x) :
    splitNl (x ++ '\n' :: y) = x :: splitNl y := by
  induction x with
  | nil => simp [splitNl]
  | cons c rest ih =>
    have hc : c ≠ '\n' := fun hc => h (hc ▸ List.mem_cons_self c rest)
    have hr : '\n' ∉ rest := fun hm => h (List.mem_cons_of_mem c hm)
    show (if c = '\n' then [] :: splitNl (rest ++ '\n' :: y)
          else match splitNl (rest ++ '\n' :: y) with
               | [] => [[c]]
               | l :: ls => (c :: l) :: ls) = (c :: rest) :: splitNl y
    rw [if_neg hc, ih hr]

theorem prefix_append_cases {p x y : Str} (h : p <+: x ++ y) :
    p <+: x ∨ ∃ s, p = x ++ s ∧ s <+: y := by
  obtain ⟨t, ht⟩ := h
  rcases List.append_eq_append_iff.1 ht with ⟨a', ha1, _⟩ | ⟨c', hc1, hc2⟩
  · exact Or.inl ⟨a', ha1.symm⟩
  · exact Or.inr ⟨c', hc1, ⟨t, hc2.symm⟩⟩

theorem prefix_head?_eq {p s : Str} (h : p <+: s) (hp : p ≠ []) :
    p.head? = s.head? := by
  obtain ⟨t, ht⟩ := h
  subst ht
  cases p with
  | nil => exact absurd rfl hp
  | cons c r => rfl

theorem nlfree_escapeBody (c : Str) : '\n' ∉ escapeBody c := by
  induction c with
  | nil => simp [escapeBody]
  | cons c0 rest ih =>
    simp only [escapeBody, List.mem_append]
    rintro (hm | hm)
    · split_ifs at hm with h1 h2 h3
      · exact absurd hm (by decide)
      · exact absurd hm (by decide)
      · exact absurd hm (by decide)
      · rw [List.mem_singleton] at hm
        exact h3 hm.symm
    · exact ih hm

theorem decodeBody_cons_plain {c : Char} (X : Str) (h2 : c ≠ '\\') (h1 : c ≠ '"') :
    decodeBody (c :: X) = (decodeBody X).map (fun t => c :: t) := by
  cases X <;> simp [decodeBody, h1, h2]

theorem decodeBody_cons_esc (e : Char) (X : Str) :
    decodeBody ('\\' :: e :: X) =
      if e = '"' then (decodeBody X).map (fun t => '"' :: t)
      else if e = '\\' then (decodeBody X).map (fun t => '\\' :: t)
      else if e = 'n' then (decodeBody X).map (fun t => '\n' :: t)
      else none := by
  simp [decodeBody]

theorem isSome_of_map {o : Option Str} {f : Str → Str} (h : (o.map f).isSome) :
    o.isSome := by
  cases o <;> simp_all

theorem decode_escape (c : Str) : decodeBody (escapeBody c) = some c := by
  induction c with
  | nil => rfl
  | cons c0 rest ih =>
    by_cases h1 : c0 = '"'
    · subst h1
      show decodeBody ('\\' :: '"' :: escapeBody rest) = some ('"' :: rest)
      rw [decodeBody_cons_esc, if_pos rfl, ih]
      rfl
    · by_cases h2 : c0 = '\\'
      · subst h2
        show decodeBody ('\\' :: '\\' :: escapeBody rest) = some ('\\' :: rest)
        rw [decodeBody_cons_esc, if_neg (by decide), if_pos rfl, ih]
        rfl
      · by_cases h3 : c0 = '\n'
        · subst h3
          show decodeBody ('\\' :: 'n' :: escapeBody rest) = some ('\n' :: rest)
          rw [decodeBody_cons_esc, if_neg (by decide), if_neg (by decide), if_pos rfl, ih]
          rfl
        · simp only [escapeBody, if_neg h1, if_neg h2, if_neg h3, List.singleton_append]
          rw [decodeBody_cons_plain _ h2 h1, ih]
          rfl

theorem uniq_aux {erest : Str}
    (ih : ∀ {u r : Str}, (decodeBody u).isSome → erest = u ++ '"' :: r → False)
    {e0 : Char} {u r : Str} (hdec : (decodeBody u).isSome)
    (h : '\\' :: e0 :: erest = u ++ '"' :: r) : False := by
  cases u with
  | nil =>
    simp only [List.nil_append, List.cons.injEq] at h
    exact absurd h.1 (by decide)
  | cons x u' =>
    cases u' with
    | nil =>
      simp only [List.cons_append, List.nil_append, List.cons.injEq] at h
      obtain ⟨hx, -, -⟩ := h
      subst hx
      simp [decodeBody] at hdec
    | cons y u'' =>
      simp only [List.cons_append, List.cons.injEq] at h
      obtain ⟨hx, -, hrest⟩ := h
      subst hx
      rw [decodeBody_cons_esc] at hdec
      split_ifs at hdec <;> first
        | exact ih (isSome_of_map hdec) hrest
        | simp at hdec

/-- Unique decodability: no decodable string followed by a bare quote is a
prefix of an escaped body (so a split frame never decodes early). -/
theorem escapeBody_ne_decodable_quote {c : Str} :
    ∀ {u r : Str}, (decodeBody u).isSome → escapeBody c = u ++ '"' :: r → False := by
  induction c with
  | nil =>
    intro u r _ h
    simp [escapeBody] at h
  | cons c0 rest ih =>
    intro u r hdec h
    by_cases h1 : c0 = '"'
    · subst h1
      simp only [escapeBody, if_pos rfl, List.cons_append, List.nil_append] at h
      exact uniq_aux (fun hd he => ih hd he) hdec h
    · by_cases h2 : c0 = '\\'
      · subst h2
        simp only [escapeBody, if_neg h1, if_pos rfl, List.cons_append,
          List.nil_append] at h
        exact uniq_aux (fun hd he => ih hd he) hdec h
      · by_cases h3 : c0 = '\n'
        · subst h3
          simp only [escapeBody, if_neg h1, if_neg h2, if_pos rfl, List.cons_append,
            List.nil_append] at h
          exact uniq_aux (fun hd he => ih hd he) hdec h
        · simp only [escapeBody, if_neg h1, if_neg h2, if_neg h3,
            List.singleton_append] at h
          cases u with
          | nil =>
            simp only [List.nil_append, List.cons.injEq] at h
            exact h1 h.1
          | cons x u' =>
            simp only [List.cons_append, List.cons.injEq] at h
            obtain ⟨hx, hrest⟩ := h
            subst hx
            rw [decodeBody_cons_plain _ h2 h1] at hdec
            exact ih (isSome_of_map hdec) hrest

/-! ## Parse lemmas: full frames parse, split fragments do not -/

theorem prefix_of_append_left {p a b : Str} (h : p <+: a ++ b)
    (hl : p.length ≤ a.length) : p <+: a := by
  have hp : p = a.take p.length := by
    have := List.prefix_iff_eq_take.mp h
    rwa [List.take_append_of_le_length hl] at this
  exact hp ▸ List.take_prefix _ _

theorem parse_data_append (z : Str) : parse (str "data: " ++ z) = decodePayload z := by
  unfold parse
  rw [List.take_append_of_le_length (by decide), List.drop_append_of_le_length (by decide),
    if_pos (by decide), show List.drop 6 (str "data: ") = [] from by decide,
    List.nil_append]

set_option maxRecDepth 8000 in
theorem parse_prefix_dataPre : ∀ q ∈ (str "data: " ++ PRE).inits, parse q = PR.null := by
  decide

set_option maxRecDepth 8000 in
theorem parse_done_prefix : ∀ q ∈ doneLine.inits, q ≠ doneLine → parse q = PR.null := by
  decide

theorem parse_frameBody_empty : parse (frameBody .empty) = PR.undef := by decide

theorem decodePayload_full (c : Str) :
    decodePayload (PRE ++ (escapeBody c ++ SUF)) = .content c := by
  have hne : PRE ++ (escapeBody c ++ SUF) ≠ emptyPayload := by
    intro h
    have h23 := congrArg (List.take 23) h
    rw [List.take_append_of_le_length (by decide)] at h23
    exact absurd h23 (by decide)
  have hpre : PRE.isPrefixOf (PRE ++ (escapeBody c ++ SUF)) = true :=
    List.isPrefixOf_iff_prefix.mpr (List.prefix_append _ _)
  have hsuf : SUF.isSuffixOf (escapeBody c ++ SUF) = true :=
    List.isSuffixOf_iff_suffix.mpr (List.suffix_append _ _)
  have hlen : PRE.length + SUF.length ≤ (PRE ++ (escapeBody c ++ SUF)).length := by
    simp [List.length_append]
  unfold decodePayload
  rw [if_neg hne, if_pos hpre, if_pos ⟨hsuf, hlen⟩, List.drop_left]
  have htake : (escapeBody c ++ SUF).take ((escapeBody c ++ SUF).length - SUF.length)
      = escapeBody c := by
    rw [List.length_append, Nat.add_sub_cancel, List.take_left]
  rw [htake, decode_escape]

theorem decodePayload_of_prefix {c m : Str} (hm : m <+: escapeBody c ++ SUF)
    (hne : m ≠ escapeBody c ++ SUF) : decodePayload (PRE ++ m) = .null := by
  obtain ⟨x, hx⟩ := hm
  have hxne : x ≠ [] := by
    intro h
    subst h
    rw [List.append_nil] at hx
    exact hne hx
  have hne2 : PRE ++ m ≠ emptyPayload := by
    intro h
    have h23 := congrArg (List.take 23) h
    rw [List.take_append_of_le_length (by decide)] at h23
    exact absurd h23 (by decide)
  have hpre : PRE.isPrefixOf (PRE ++ m) = true :=
    List.isPrefixOf_iff_prefix.mpr (List.prefix_append _ _)
  unfold decodePayload
  rw [if_neg hne2, if_pos hpre, List.drop_left]
  by_cases hs : SUF.isSuffixOf m = true
  · obtain ⟨m', hm'⟩ := List.isSuffixOf_iff_suffix.mp hs
    subst hm'
    have hxlen := congrArg List.length hx
    simp only [List.length_append] at hxlen
    have hx1 : 1 ≤ x.length := List.length_pos.mpr hxne
    have hlt : m'.length < (escapeBody c).length := by omega
    have hm'pre : m' <+: escapeBody c := by
      have hx' : m' ++ (SUF ++ x) = escapeBody c ++ SUF := by
        rw [← List.append_assoc, hx]
      exact prefix_of_append_left (b := SUF) ⟨SUF ++ x, hx'⟩ (Nat.le_of_lt hlt)
    obtain ⟨tl, htl⟩ := hm'pre
    have htlne : tl ≠ [] := by
      intro h
      subst h
      rw [List.append_nil] at htl
      subst htl
      exact Nat.lt_irrefl _ hlt
    have hmid : SUF ++ x = tl ++ SUF := by
      have h2 : m' ++ (SUF ++ x) = m' ++ (tl ++ SUF) := by
        rw [← List.append_assoc, hx, ← htl, List.append_assoc]
      exact List.append_cancel_left h2
    obtain ⟨d, tl', htl'⟩ : ∃ d tl', tl = d :: tl' := by
      cases tl with
      | nil => exact absurd rfl htlne
      | cons d tl' => exact ⟨d, tl', rfl⟩
    subst htl'
    have hd : d = '"' := by
      have hh := congrArg List.head? hmid
      simpa [SUF, str] using hh.symm
    subst hd
    have hquote : escapeBody c = m' ++ '"' :: tl' := htl.symm
    have htk : (m' ++ SUF).take ((m' ++ SUF).length - SUF.length) = m' := by
      rw [List.length_append, Nat.add_sub_cancel, List.take_left]
    rw [if_pos ⟨hs, by simp [List.length_append]⟩, htk]
    cases hdb : decodeBody m' with
    | none => rfl
    | some v =>
      exact absurd hquote
        (fun hq => escapeBody_ne_decodable_quote (by rw [hdb]; rfl) hq)
  · rw [if_neg (fun hand => hs hand.1)]

theorem parse_frameBody_delta (c : Str) :
    parse (frameBody (.delta c)) = .content c := by
  show parse (str "data: " ++ (PRE ++ (escapeBody c ++ SUF))) = .content c
  rw [parse_data_append, decodePayload_full]

theorem parse_prefix_body {q c : Str} (hq : q <+: frameBody (.delta c))
    (hne : q ≠ frameBody (.delta c)) : parse q = .null := by
  have hq' : q <+: (str "data: " ++ PRE) ++ (escapeBody c ++ SUF) := by
    simpa [frameBody, List.append_assoc] using hq
  rcases prefix_append_cases hq' with hcase | ⟨m, hm, hmp⟩
  · exact parse_prefix_dataPre q ((List.mem_inits _ _).mpr hcase)
  · subst hm
    have hmne : m ≠ escapeBody c ++ SUF := by
      intro h
      subst h
      exact hne (by simp [frameBody, List.append_assoc])
    rw [List.append_assoc, parse_data_append, decodePayload_of_prefix hmp hmne]

theorem doneLine_nlfree : '\n' ∉ doneLine := by decide

theorem frameBody_nlfree (f : Frame) : '\n' ∉ frameBody f := by
  cases f with
  | empty => decide
  | delta c =>
    show '\n' ∉ str "data: " ++ (PRE ++ (escapeBody c ++ SUF))
    simp only [List.mem_append]
    rintro (h | h | h | h)
    · exact absurd h (by decide)
    · exact absurd h (by decide)
    · exact nlfree_escapeBody c h
    · exact absurd h (by decide)

theorem doneLine_not_prefix_delta (c : Str) : ¬ doneLine <+: frameBody (.delta c) := by
  intro h
  obtain ⟨t, ht⟩ := h
  have hbody : frameBody (.delta c) = (str "data: " ++ PRE) ++ (escapeBody c ++ SUF) := by
    simp [frameBody, List.append_assoc]
  have h7 := congrArg (List.take 7) (ht.trans hbody)
  rw [List.take_append_of_le_length (show 7 ≤ doneLine.length by decide),
    List.take_append_of_le_length (by decide)] at h7
  exact absurd h7 (by decide)

theorem frameBody_head (f : Frame) : (frameBody f).head? = some 'd' := by
  cases f with
  | empty => decide
  | delta c => rfl

theorem frameBody_ne_done (f : Frame) : frameBody f ≠ doneLine := by
  cases f with
  | empty => decide
  | delta c =>
    intro h
    exact doneLine_not_prefix_delta c (h ▸ List.prefix_refl _)

/-! ## Single-piece transitions of the streaming loop -/

/-- What one complete, successfully parsed delta line does to the state
(lines 140–156 of the source, `.content` case). -/
def contentStep (st : ChatState) (c : Str) : ChatState :=
  if c.length > 0 then
    if st.answer.length < 1 then
      { answer := trim c, buffer := [],
        emits := st.emits ++ (if (trim c).length > 0 then [trim c] else []) }
    else
      { answer := st.answer ++ c, buffer := [], emits := st.emits ++ [c] }
  else st

theorem contentStep_obs_free (st st' : ChatState) (c : Str)
    (ha : st.answer = st'.answer) (he : st.emits = st'.emits) (hc : c ≠ []) :
    contentStep st c = contentStep st' c := by
  unfold contentStep
  rw [if_pos (List.length_pos.mpr hc), if_pos (List.length_pos.mpr hc), ha, he]

theorem processLines_cons (st : ChatState) (p : Str) (ps : List Str) :
    processLines st (p :: ps) =
      if (st.buffer ++ p).head? = some ':' then
        processLines { st with buffer := [] } ps
      else if st.buffer ++ p = doneLine then st
      else if (st.buffer ++ p).length > 0 then
        match parse (st.buffer ++ p) with
        | .null => processLines { st with buffer := st.buffer ++ p } ps
        | .undef => processLines st ps
        | .content s =>
          if s.length > 0 then
            if st.answer.length < 1 then
              processLines { answer := trim s, buffer := [], emits := st.emits ++ (if (trim s).length > 0 then [trim s] else []) } ps
            else
              processLines { answer := st.answer ++ s, buffer := [], emits := st.emits ++ [s] } ps
          else processLines st ps
      else processLines st ps := rfl

theorem processLines_content_cons {st : ChatState} {p c : Str} (ps : List Str)
    (hline : st.buffer ++ p = frameBody (.delta c)) :
    processLines st (p :: ps) = processLines (contentStep st c) ps := by
  have hhead : (st.buffer ++ p).head? = some 'd' := hline ▸ frameBody_head _
  have hne : st.buffer ++ p ≠ doneLine := hline ▸ frameBody_ne_done _
  have hlen : (st.buffer ++ p).length > 0 := by
    cases hl : st.buffer ++ p with
    | nil => rw [hl] at hhead; exact absurd hhead (by simp)
    | cons x r => simp
  have hparse : parse (st.buffer ++ p) = .content c := hline ▸ parse_frameBody_delta c
  rw [processLines_cons, if_neg (by rw [hhead]; decide), if_neg hne, if_pos hlen, hparse]
  unfold contentStep
  by_cases hc : c.length > 0
  · by_cases hans : st.answer.length < 1
    · simp only [if_pos hc, if_pos hans]
    · simp only [if_pos hc, if_neg hans]
  · simp only [if_neg hc]

theorem processLines_undef_cons {st : ChatState} {p : Str} (ps : List Str)
    (hline : st.buffer ++ p = frameBody .empty) :
    processLines st (p :: ps) = processLines st ps := by
  have hhead : (st.buffer ++ p).head? = some 'd' := hline ▸ frameBody_head _
  have hne : st.buffer ++ p ≠ doneLine := hline ▸ frameBody_ne_done _
  have hlen : (st.buffer ++ p).length > 0 := by
    cases hl : st.buffer ++ p with
    | nil => rw [hl] at hhead; exact absurd hhead (by simp)
    | cons x r => simp
  have hparse : parse (st.buffer ++ p) = .undef := hline ▸ parse_frameBody_empty
  rw [processLines_cons, if_neg (by rw [hhead]; decide), if_neg hne, if_pos hlen, hparse]

theorem processLines_partial_cons {st : ChatState} {p : Str} (ps : List Str)
    (h0 : st.buffer ++ p ≠ []) (h1 : (st.buffer ++ p).head? ≠ some ':')
    (h2 : st.buffer ++ p ≠ doneLine) (h3 : parse (st.buffer ++ p) = .null) :
    processLines st (p :: ps) = processLines { st with buffer := st.buffer ++ p } ps := by
  have hlen : (st.buffer ++ p).length > 0 := List.length_pos.mpr h0
  rw [processLines_cons, if_neg h1, if_neg h2, if_pos hlen, h3]

theorem processLines_done_cons {st : ChatState} {p : Str} (ps : List Str)
    (h : st.buffer ++ p = doneLine) : processLines st (p :: ps) = st := by
  have hhead : (st.buffer ++ p).head? = some 'd' := by rw [h]; decide
  rw [processLines_cons, if_neg (by rw [hhead]; decide), if_pos h]

/-- A state whose buffer, re-processed as a line on its own, is a no-op:
either empty, or a non-comment, non-terminator line that fails to parse.
Every reachable buffer has this shape. -/
def Stable (st : ChatState) : Prop :=
  st.buffer = [] ∨
    (st.buffer.head? ≠ some ':' ∧ st.buffer ≠ doneLine ∧ parse st.buffer = .null)

theorem processLines_nil_piece {st : ChatState} (hst : Stable st) (ps : List Str) :
    processLines st ([] :: ps) = processLines st ps := by
  by_cases hb : st.buffer = []
  · rw [processLines_cons, List.append_nil, hb,
      if_neg (by decide), if_neg (by decide), if_neg (by decide)]
  · rcases hst with hb' | ⟨h1, h2, h3⟩
    · exact absurd hb' hb
    · rw [processLines_partial_cons ps (by rw [List.append_nil]; exact hb)
        (by rw [List.append_nil]; exact h1) (by rw [List.append_nil]; exact h2)
        (by rw [List.append_nil]; exact h3)]
      rw [List.append_nil]

theorem splitNl_newlines {c : Str} (hc : ∀ ch ∈ c, ch = '\n') :
    splitNl c = List.replicate (c.length + 1) [] := by
  induction c with
  | nil => rfl
  | cons x r ih =>
    have hx : x = '\n' := hc x (List.mem_cons_self _ _)
    have hr : ∀ ch ∈ r, ch = '\n' := fun ch hm => hc ch (List.mem_cons_of_mem _ hm)
    show (if x = '\n' then [] :: splitNl r
          else match splitNl r with
               | [] => [[x]]
               | l :: ls => (x :: l) :: ls) = _
    rw [if_pos hx, ih hr]
    rfl

theorem processLines_replicate_nil {st : ChatState} (hst : Stable st) (n : Nat) :
    processLines st (List.replicate n []) = st := by
  induction n with
  | zero => rfl
  | succ k ih =>
    rw [List.replicate_succ, processLines_nil_piece hst, ih]

theorem feedChunk_newlines {st : ChatState} (hst : Stable st) {c : Str}
    (hc : ∀ ch ∈ c, ch = '\n') : feedChunk st c = st := by
  unfold feedChunk
  rw [splitNl_newlines hc, processLines_replicate_nil hst]

/-- The observable part of the streaming state: the answer and the sink
emissions. -/
def obs (st : ChatState) : Str × List Str := (st.answer, st.emits)

/-- A line of a well-formed transcript before the terminator: a delta frame
with non-empty content. -/
def GoodBody (l : Str) : Prop := ∃ c, c ≠ [] ∧ l = frameBody (.delta c)

theorem linesText_nil : linesText [] = [] := rfl

theorem linesText_cons (l : Str) (ls : List Str) :
    linesText (l :: ls) = l ++ '\n' :: linesText ls := by
  show (l ++ ['\n']) ++ linesText ls = l ++ '\n' :: linesText ls
  rw [List.append_assoc, List.singleton_append]

theorem feedChunk_nil {st : ChatState} (hst : Stable st) : feedChunk st [] = st := by
  show processLines st [[]] = st
  rw [processLines_nil_piece hst]
  rfl

theorem feedChunk_nlfree {st : ChatState} {c : Str} (h : '\n' ∉ c) :
    feedChunk st c = processLines st [c] := by
  rw [feedChunk, splitNl_nlfree h]

theorem feedChunk_split {st : ChatState} {x : Str} (y : Str) (h : '\n' ∉ x) :
    feedChunk st (x ++ '\n' :: y) = processLines st (x :: splitNl y) := by
  rw [feedChunk, splitNl_append_cons y h]

theorem splitNl_cons_nl (y : Str) : splitNl ('\n' :: y) = [] :: splitNl y := by
  show (if '\n' = '\n' then [] :: splitNl y else _) = _
  rw [if_pos rfl]

/-- Reassemble a prefix with the rest of the list. -/
theorem prefix_reassemble {p s : Str} (h : p <+: s) : p ++ s.drop p.length = s := by
  obtain ⟨t, ht⟩ := h
  subst ht
  rw [List.drop_left]

theorem prefix_singleton_cases {s : Str} {x : Char} (h : s <+: [x]) :
    s = [] ∨ s = [x] := by
  cases s with
  | nil => exact Or.inl rfl
  | cons a t =>
    rw [List.cons_prefix_iff] at h
    obtain ⟨ha, ht⟩ := h
    rw [List.prefix_nil] at ht
    exact Or.inr (by rw [ha, ht])

theorem cons_prefix_cases {s : Str} {x : Char} {y : Str} (h : s <+: x :: y)
    (hne : s ≠ []) : ∃ m, s = x :: m ∧ m <+: y := by
  cases s with
  | nil => exact absurd rfl hne
  | cons a t =>
    rw [List.cons_prefix_iff] at h
    exact ⟨t, by rw [h.1], h.2⟩

/-- The partial-line step for a proper, non-empty prefix of a frame body or
of the terminator line. -/
theorem step_buffer_partial {st : ChatState} {q l : Str} (ps : List Str)
    (hq : st.buffer ++ q <+: l) (hne : st.buffer ++ q ≠ l) (hqe : st.buffer ++ q ≠ [])
    (hl : l = doneLine ∨ ∃ c, l = frameBody (.delta c)) :
    processLines st (q :: ps) = processLines { st with buffer := st.buffer ++ q } ps := by
  have hhead : l.head? = some 'd' := by
    rcases hl with h | ⟨c, h⟩
    · rw [h]; decide
    · rw [h]; exact frameBody_head _
  apply processLines_partial_cons ps hqe
  · rw [prefix_head?_eq hq hqe, hhead]
    decide
  · rcases hl with h | ⟨c, h⟩
    · rw [h] at hne; exact hne
    · intro hd
      subst h
      exact doneLine_not_prefix_delta c (hd ▸ hq)
  · rcases hl with h | ⟨c, h⟩
    · subst h
      exact parse_done_prefix _ ((List.mem_inits _ _).mpr hq) hne
    · subst h
      exact parse_prefix_body hq hne

/-- Stability of a buffer holding a proper, non-empty prefix of a frame body
or of the terminator line. -/
theorem stable_of_partial {st : ChatState} {l : Str} (hq : st.buffer <+: l)
    (hne : st.buffer ≠ l) (hqe : st.buffer ≠ [])
    (hl : l = doneLine ∨ ∃ c, l = frameBody (.delta c)) : Stable st := by
  have hhead : l.head? = some 'd' := by
    rcases hl with h | ⟨c, h⟩
    · rw [h]; decide
    · rw [h]; exact frameBody_head _
  refine Or.inr ⟨?_, ?_, ?_⟩
  · rw [prefix_head?_eq hq hqe, hhead]
    decide
  · rcases hl with h | ⟨c, h⟩
    · rw [h] at hne; exact hne
    · intro hd
      subst h
      exact doneLine_not_prefix_delta c (hd ▸ hq)
  · rcases hl with h | ⟨c, h⟩
    · subst h
      exact parse_done_prefix _ ((List.mem_inits _ _).mpr hq) hne
    · subst h
      exact parse_prefix_body hq hne

theorem nlfree_of_prefix {p s : Str} (h : p <+: s) (hs : '\n' ∉ s) : '\n' ∉ p :=
  fun hm => hs (h.sublist.subset hm)

theorem feedChunk_partial {s : ChatState} {q l : Str} (hnl : '\n' ∉ q)
    (hq : s.buffer ++ q <+: l) (hne : s.buffer ++ q ≠ l) (hqe : s.buffer ++ q ≠ [])
    (hl : l = doneLine ∨ ∃ c, l = frameBody (.delta c)) :
    feedChunk s q = { s with buffer := s.buffer ++ q } := by
  rw [feedChunk_nlfree hnl, step_buffer_partial [] hq hne hqe hl]
  rfl

theorem feedChunk_partial0 {st : ChatState} {q l : Str} (hb : st.buffer = [])
    (hnl : '\n' ∉ q) (hq : q <+: l) (hne : q ≠ l) (hqe : q ≠ [])
    (hl : l = doneLine ∨ ∃ c, l = frameBody (.delta c)) :
    feedChunk st q = { st with buffer := q } := by
  have h := feedChunk_partial (s := st) (l := l) hnl
    (by rw [hb, List.nil_append]; exact hq) (by rw [hb, List.nil_append]; exact hne)
    (by rw [hb, List.nil_append]; exact hqe) hl
  rwa [hb, List.nil_append] at h

theorem feedChunk_done_piece {s : ChatState} {q : Str} (hnl : '\n' ∉ q)
    (h : s.buffer ++ q = doneLine) : feedChunk s q = s := by
  rw [feedChunk_nlfree hnl]
  exact processLines_done_cons [] h

theorem feedChunk_done_split {s : ChatState} {q : Str} (m : Str) (hnl : '\n' ∉ q)
    (h : s.buffer ++ q = doneLine) : feedChunk s (q ++ '\n' :: m) = s := by
  rw [feedChunk_split m hnl]
  exact processLines_done_cons _ h

theorem feedChunk_body_whole {s : ChatState} {q c : Str}
    (h : s.buffer ++ q = frameBody (.delta c)) (hq : '\n' ∉ q) :
    feedChunk s q = contentStep s c := by
  rw [feedChunk_nlfree hq, processLines_content_cons [] h]
  rfl

theorem feedChunk_body_split {s : ChatState} {q c : Str} (m : Str)
    (h : s.buffer ++ q = frameBody (.delta c)) (hq : '\n' ∉ q) :
    feedChunk s (q ++ '\n' :: m) = feedChunk (contentStep s c) m := by
  rw [feedChunk_split m hq, processLines_content_cons (splitNl m) h]
  rfl

theorem contentStep_buffer {st : ChatState} {c : Str} (hb : st.buffer = []) :
    (contentStep st c).buffer = [] := by
  unfold contentStep
  split_ifs <;> simp [hb]

/-- The merge step: feeding two consecutive chunks of a well-formed
transcript equals feeding their concatenation, except that once the
terminator has been consumed the two buffers may differ while the
observables agree and only newline characters remain. -/
theorem mergeStep : ∀ (bodies : List Str), (∀ l ∈ bodies, GoodBody l) →
    ∀ (st : ChatState), st.buffer = [] → ∀ a b : Str,
    (a ++ b) <+: linesText (bodies ++ [doneLine]) →
    feedChunk (feedChunk st a) b = feedChunk st (a ++ b)
    ∨ (obs (feedChunk (feedChunk st a) b) = obs (feedChunk st (a ++ b))
       ∧ Stable (feedChunk (feedChunk st a) b)
       ∧ Stable (feedChunk st (a ++ b))
       ∧ ∀ ch ∈ (linesText (bodies ++ [doneLine])).drop (a.length + b.length), ch = '\n') := by
  intro bodies
  induction bodies with
  | nil =>
    intro _ st hb a b hab
    rw [List.nil_append, linesText_cons, linesText_nil] at hab ⊢
    by_cases hae : a = []
    · subst hae
      left
      rw [feedChunk_nil (Or.inl hb), List.nil_append]
    by_cases hfull : a ++ b = doneLine ++ '\n' :: []
    · by_cases had : a.length ≤ doneLine.length
      · have ha : a <+: doneLine := prefix_of_append_left ⟨b, hfull⟩ had
        have hanl : '\n' ∉ a := nlfree_of_prefix ha doneLine_nlfree
        by_cases hadon : a = doneLine
        · have hbe : b = '\n' :: [] := by
            rw [hadon] at hfull
            exact List.append_cancel_left hfull
          subst hbe
          subst hadon
          left
          rw [feedChunk_done_piece doneLine_nlfree (by rw [hb, List.nil_append]),
            feedChunk_newlines (Or.inl hb) (by simp),
            feedChunk_done_split [] doneLine_nlfree (by rw [hb, List.nil_append])]
        · have hbshape : b = doneLine.drop a.length ++ '\n' :: [] := by
            have h1 : b = (a ++ b).drop a.length := by rw [List.drop_left]
            rwa [hfull, List.drop_append_of_le_length had] at h1
          have hstep : feedChunk st a = { st with buffer := a } :=
            feedChunk_partial0 hb hanl ha hadon hae (Or.inl rfl)
          rw [hstep, hbshape,
            feedChunk_done_split (s := { st with buffer := a }) []
              (fun hm => doneLine_nlfree (List.drop_subset _ _ hm))
              (show a ++ doneLine.drop a.length = doneLine from prefix_reassemble ha),
            show a ++ (doneLine.drop a.length ++ '\n' :: []) = doneLine ++ '\n' :: [] from by
              rw [← List.append_assoc, prefix_reassemble ha],
            feedChunk_done_split [] doneLine_nlfree (by rw [hb, List.nil_append])]
          right
          refine ⟨rfl, stable_of_partial (l := doneLine) ha hadon hae (Or.inl rfl),
            Or.inl hb, ?_⟩
          have hlen2 : a.length + (doneLine.drop a.length ++ '\n' :: []).length
              = (doneLine ++ '\n' :: []).length := by
            simp only [List.length_append, List.length_cons, List.length_nil,
              List.length_drop]
            omega
          rw [hlen2, List.drop_length]
          simp
      · have haf : a = doneLine ++ '\n' :: [] := by
          have hpre : a <+: doneLine ++ '\n' :: [] := ⟨b, hfull⟩
          refine hpre.eq_of_length ?_
          have h1 := hpre.length_le
          have h2 : (doneLine ++ '\n' :: []).length = doneLine.length + 1 := by
            rw [List.length_append]
            rfl
          omega
        have hbe : b = [] := by
          rw [haf] at hfull
          have h3 : (doneLine ++ '\n' :: []) ++ b = (doneLine ++ '\n' :: []) ++ [] := by
            rw [List.append_nil]
            exact hfull
          exact List.append_cancel_left h3
        subst hbe
        subst haf
        left
        rw [List.append_nil,
          feedChunk_done_split [] doneLine_nlfree (by rw [hb, List.nil_append]),
          feedChunk_nil (Or.inl hb)]
    · have hcase : a ++ b <+: doneLine := by
        apply prefix_of_append_left hab
        have h1 := hab.length_le
        by_contra hgt
        push_neg at hgt
        have h2 : (doneLine ++ '\n' :: []).length = doneLine.length + 1 := by
          rw [List.length_append]
          rfl
        exact hfull (hab.eq_of_length (by omega))
      have ha : a <+: doneLine := (List.prefix_append a b).trans hcase
      have hanl : '\n' ∉ a := nlfree_of_prefix ha doneLine_nlfree
      have habnl : '\n' ∉ a ++ b := nlfree_of_prefix hcase doneLine_nlfree
      have hbnl : '\n' ∉ b := fun hm => habnl (List.mem_append.mpr (Or.inr hm))
      by_cases habd : a ++ b = doneLine
      · by_cases hadon : a = doneLine
        · have hbe : b = [] := by
            rw [hadon] at habd
            have h3 : doneLine ++ b = doneLine ++ [] := by
              rw [List.append_nil]
              exact habd
            exact List.append_cancel_left h3
          subst hbe
          subst hadon
          left
          rw [List.append_nil, feedChunk_done_piece doneLine_nlfree (by rw [hb, List.nil_append]),
            feedChunk_nil (Or.inl hb)]
        · have hstep : feedChunk st a = { st with buffer := a } :=
            feedChunk_partial0 hb hanl ha hadon hae (Or.inl rfl)
          rw [hstep, feedChunk_done_piece (s := { st with buffer := a }) hbnl habd,
            habd, feedChunk_done_piece doneLine_nlfree (by rw [hb, List.nil_append])]
          right
          refine ⟨rfl, stable_of_partial (l := doneLine) ha hadon hae (Or.inl rfl),
            Or.inl hb, ?_⟩
          have hlen : a.length + b.length = doneLine.length := by
            rw [← List.length_append, habd]
          rw [hlen, List.drop_append_of_le_length (Nat.le_refl _), List.drop_length,
            List.nil_append]
          simp
      · left
        have hadon : a ≠ doneLine := by
          intro h
          apply habd
          refine hcase.eq_of_length (Nat.le_antisymm hcase.length_le ?_)
          rw [List.length_append, h]
          omega
        have habe : a ++ b ≠ [] := fun h => hae (List.append_eq_nil.mp h).1
        have hstep : feedChunk st a = { st with buffer := a } :=
          feedChunk_partial0 hb hanl ha hadon hae (Or.inl rfl)
        rw [hstep,
          feedChunk_partial (s := { st with buffer := a }) hbnl hcase habd habe (Or.inl rfl),
          feedChunk_partial0 hb habnl hcase habd habe (Or.inl rfl)]
  | cons body rest ih =>
    intro hgood st hb a b hab
    obtain ⟨c, hcne, hcbody⟩ := hgood body (List.mem_cons_self _ _)
    have hgood' : ∀ l ∈ rest, GoodBody l := fun l hl => hgood l (List.mem_cons_of_mem _ hl)
    rw [List.cons_append, linesText_cons] at hab ⊢
    by_cases hae : a = []
    · subst hae
      left
      rw [feedChunk_nil (Or.inl hb), List.nil_append]
    have hbodynl : '\n' ∉ body := by rw [hcbody]; exact frameBody_nlfree _
    by_cases hablen : (a ++ b).length ≤ body.length
    · have hcase : a ++ b <+: body := prefix_of_append_left hab hablen
      have ha : a <+: body := (List.prefix_append a b).trans hcase
      have hanl : '\n' ∉ a := nlfree_of_prefix ha hbodynl
      have habnl : '\n' ∉ a ++ b := nlfree_of_prefix hcase hbodynl
      have hbnl : '\n' ∉ b := fun hm => habnl (List.mem_append.mpr (Or.inr hm))
      left
      by_cases habfull : a ++ b = body
      · by_cases hadon : a = body
        · have hbe : b = [] := by
            rw [hadon] at habfull
            have h3 : body ++ b = body ++ [] := by
              rw [List.append_nil]
              exact habfull
            exact List.append_cancel_left h3
          subst hbe
          rw [List.append_nil]
          have h1 : feedChunk st a = contentStep st c := by
            apply feedChunk_body_whole _ hanl
            rw [hb, List.nil_append, hadon, hcbody]
          rw [h1, feedChunk_nil (Or.inl (contentStep_buffer hb))]
        · have hstep : feedChunk st a = { st with buffer := a } :=
            feedChunk_partial0 hb hanl (l := frameBody (.delta c)) (hcbody ▸ ha)
              (fun h => hadon (h.trans hcbody.symm)) hae (Or.inr ⟨c, rfl⟩)
          rw [hstep,
            feedChunk_body_whole (s := { st with buffer := a })
              (show a ++ b = frameBody (.delta c) from by rw [habfull, hcbody]) hbnl,
            feedChunk_body_whole (s := st)
              (show st.buffer ++ (a ++ b) = frameBody (.delta c) from by
                rw [hb, List.nil_append, habfull, hcbody]) habnl]
          exact contentStep_obs_free _ _ _ rfl rfl hcne
      · have hadon : a ≠ body := by
          intro h
          apply habfull
          refine hcase.eq_of_length (Nat.le_antisymm hcase.length_le ?_)
          rw [List.length_append, h]
          omega
        have habe : a ++ b ≠ [] := fun h => hae (List.append_eq_nil.mp h).1
        have hstep : feedChunk st a = { st with buffer := a } :=
          feedChunk_partial0 hb hanl (l := frameBody (.delta c)) (hcbody ▸ ha)
            (fun h => hadon (h.trans hcbody.symm)) hae (Or.inr ⟨c, rfl⟩)
        rw [hstep,
          feedChunk_partial (s := { st with buffer := a }) hbnl (l := frameBody (.delta c))
            (hcbody ▸ hcase) (fun h => habfull (h.trans hcbody.symm)) habe (Or.inr ⟨c, rfl⟩),
          feedChunk_partial0 hb habnl (l := frameBody (.delta c)) (hcbody ▸ hcase)
            (fun h => habfull (h.trans hcbody.symm)) habe (Or.inr ⟨c, rfl⟩)]
    · push_neg at hablen
      rw [List.length_append] at hablen
      obtain ⟨m, hs1, hm⟩ : ∃ m, a ++ b = body ++ '\n' :: m
          ∧ m <+: linesText (rest ++ [doneLine]) := by
        rcases prefix_append_cases hab with h1 | ⟨s, hq1, hq2⟩
        · have h2 := h1.length_le
          rw [List.length_append] at h2
          omega
        · have hsne : s ≠ [] := by
            intro h
            subst h
            rw [List.append_nil] at hq1
            have := congrArg List.length hq1
            rw [List.length_append] at this
            omega
          obtain ⟨m, hsm, hmp⟩ := cons_prefix_cases hq2 hsne
          exact ⟨m, by rw [hq1, hsm], hmp⟩
      by_cases halen : a.length ≤ body.length
      · have ha : a <+: body := prefix_of_append_left ⟨b, hs1⟩ halen
        have hanl : '\n' ∉ a := nlfree_of_prefix ha hbodynl
        have hbshape : b = body.drop a.length ++ '\n' :: m := by
          have h1 : b = (a ++ b).drop a.length := by rw [List.drop_left]
          rwa [hs1, List.drop_append_of_le_length halen] at h1
        left
        by_cases hadon : a = body
        · have hdrop : body.drop a.length = [] := by
            rw [hadon, List.drop_length]
          have h1 : feedChunk st a = contentStep st c := by
            apply feedChunk_body_whole _ hanl
            rw [hb, List.nil_append, hadon, hcbody]
          have h2 : feedChunk st (a ++ b) = feedChunk (contentStep st c) m := by
            rw [hs1]
            exact feedChunk_body_split m (by rw [hb, List.nil_append, hcbody]) hbodynl
          rw [h1, h2, hbshape, hdrop, List.nil_append, feedChunk, splitNl_cons_nl,
            processLines_nil_piece (Or.inl (contentStep_buffer hb))]
          rfl
        · have hstep : feedChunk st a = { st with buffer := a } :=
            feedChunk_partial0 hb hanl (l := frameBody (.delta c)) (hcbody ▸ ha)
              (fun h => hadon (h.trans hcbody.symm)) hae (Or.inr ⟨c, rfl⟩)
          have hdnl : '\n' ∉ body.drop a.length :=
            fun hm2 => hbodynl (List.drop_subset _ _ hm2)
          have h2 : feedChunk { st with buffer := a } (body.drop a.length ++ '\n' :: m)
              = feedChunk (contentStep { st with buffer := a } c) m := by
            apply feedChunk_body_split m _ hdnl
            show a ++ body.drop a.length = _
            rw [prefix_reassemble ha, hcbody]
          have h3 : feedChunk st (a ++ b) = feedChunk (contentStep st c) m := by
            rw [hs1]
            exact feedChunk_body_split m (by rw [hb, List.nil_append, hcbody]) hbodynl
          rw [hstep, h3, hbshape, h2,
            contentStep_obs_free { st with buffer := a } st c rfl rfl hcne]
      · push_neg at halen
        have hsplit : body ++ '\n' :: m = (body ++ '\n' :: []) ++ m := by
          rw [List.append_assoc]
          rfl
        have hpre_a : a <+: (body ++ '\n' :: []) ++ m := by
          rw [← hsplit, ← hs1]
          exact List.prefix_append a b
        have hashape : ∃ a', a = (body ++ '\n' :: []) ++ a' ∧ a' <+: m := by
          rcases prefix_append_cases hpre_a with h1 | ⟨a', ha1, ha2⟩
          · refine ⟨[], ?_, List.nil_prefix⟩
            rw [List.append_nil]
            apply h1.eq_of_length
            have h2 := h1.length_le
            rw [List.length_append, List.length_cons, List.length_nil] at h2 ⊢
            omega
          · exact ⟨a', ha1, ha2⟩
        obtain ⟨a', ha1, ha2⟩ := hashape
        have ha'b : a' ++ b = m := by
          have h1 : (body ++ '\n' :: []) ++ (a' ++ b) = (body ++ '\n' :: []) ++ m := by
            rw [← List.append_assoc, ← ha1, hs1, hsplit]
          exact List.append_cancel_left h1
      -- the first line of `a` is the whole body line: recurse on the rest
        have hst2 : (contentStep st c).buffer = [] := contentStep_buffer hb
        have e1 : feedChunk st a = feedChunk (contentStep st c) a' := by
          rw [ha1, List.append_assoc, List.cons_append, List.nil_append]
          exact feedChunk_body_split a' (by rw [hb, List.nil_append, hcbody]) hbodynl
        have e2 : feedChunk st (a ++ b) = feedChunk (contentStep st c) (a' ++ b) := by
          rw [hs1, ha'b.symm]
          exact feedChunk_body_split (a' ++ b) (by rw [hb, List.nil_append, hcbody]) hbodynl
        have hIH := ih hgood' (contentStep st c) hst2 a' b (ha'b ▸ hm)
        rcases hIH with heq | ⟨hobs, hst1', hst2', hdrop⟩
        · left
          rw [e1, e2, heq]
        · right
          rw [e1, e2]
          refine ⟨hobs, hst1', hst2', ?_⟩
          have hlen : a.length + b.length = body.length + (1 + (a'.length + b.length)) := by
            rw [ha1]
            simp only [List.length_append, List.length_cons, List.length_nil]
            omega
          rw [hlen, show body ++ '\n' :: linesText (rest ++ [doneLine])
              = body ++ ('\n' :: linesText (rest ++ [doneLine])) from rfl,
            List.drop_append, Nat.add_comm 1 _, List.drop_succ_cons]
          exact hdrop

theorem transcript_linesText (fs : List Frame) :
    transcript fs = linesText (fs.map frameBody ++ [doneLine]) := by
  unfold transcript linesText
  rw [List.map_append, List.flatten_append, List.map_map]
  simp only [Function.comp_def, List.map_cons, List.map_nil, List.flatten_cons,
    List.flatten_nil, List.append_nil, List.append_assoc]

theorem goodBodies (cs : List Str) (h : ∀ c ∈ cs, c ≠ []) :
    ∀ l ∈ (cs.map Frame.delta).map frameBody, GoodBody l := by
  intro l hl
  rw [List.map_map] at hl
  obtain ⟨c, hc, rfl⟩ := List.mem_map.mp hl
  exact ⟨c, h c hc, rfl⟩

theorem foldl_inert {chunks : List Str} (hall : ∀ c ∈ chunks, ∀ ch ∈ c, ch = '\n') :
    ∀ (s : ChatState), Stable s → chunks.foldl feedChunk s = s := by
  induction chunks with
  | nil => intro s _; rfl
  | cons c cr ih =>
    intro s hs
    rw [List.foldl_cons, feedChunk_newlines hs (hall c (List.mem_cons_self _ _))]
    exact ih (fun c' hc' => hall c' (List.mem_cons_of_mem _ hc')) s hs

theorem linesText_ne_nil (bodies : List Str) :
    linesText (bodies ++ [doneLine]) ≠ [] := by
  cases bodies with
  | nil =>
    rw [List.nil_append, linesText_cons]
    simp
  | cons x xs =>
    rw [List.cons_append, linesText_cons]
    simp

/-- Any chunking of a well-formed transcript yields the same observables as
the whole transcript fed as one chunk. -/
theorem feedChunks_eq_whole (bodies : List Str) (hgood : ∀ l ∈ bodies, GoodBody l) :
    ∀ (n : Nat) (chunks : List Str), chunks.length ≤ n →
    chunks.flatten = linesText (bodies ++ [doneLine]) →
    obs (feedChunks chunks) = obs (feedChunks [linesText (bodies ++ [doneLine])]) := by
  intro n
  induction n with
  | zero =>
    intro chunks hlen hflat
    have hnil : chunks = [] := List.length_eq_zero.mp (Nat.le_zero.mp hlen)
    subst hnil
    exact absurd hflat.symm (linesText_ne_nil bodies)
  | succ k ihn =>
    intro chunks hlen hflat
    match chunks with
    | [] => exact absurd hflat.symm (linesText_ne_nil bodies)
    | [c] =>
      have hc : c = linesText (bodies ++ [doneLine]) := by
        rw [← hflat]
        simp
      rw [hc]
    | c1 :: c2 :: rest =>
      have hflat' : ((c1 ++ c2) :: rest).flatten = linesText (bodies ++ [doneLine]) := by
        rw [← hflat]
        simp [List.append_assoc]
      have hpre : (c1 ++ c2) <+: linesText (bodies ++ [doneLine]) := by
        rw [← hflat']
        rw [List.flatten_cons]
        exact List.prefix_append _ _
      have hinit : (({} : ChatState)).buffer = [] := rfl
      rcases mergeStep bodies hgood {} hinit c1 c2 hpre with heq | ⟨hobs, hst1, hst2, hdrop⟩
      · have e : feedChunks (c1 :: c2 :: rest) = feedChunks ((c1 ++ c2) :: rest) := by
          unfold feedChunks
          rw [List.foldl_cons, List.foldl_cons, List.foldl_cons, heq]
        rw [e]
        refine ihn ((c1 ++ c2) :: rest) ?_ hflat'
        simp only [List.length_cons] at hlen ⊢
        omega
      · have hrest : rest.flatten
            = (linesText (bodies ++ [doneLine])).drop (c1.length + c2.length) := by
          rw [← hflat]
          rw [show (c1 :: c2 :: rest).flatten = (c1 ++ c2) ++ rest.flatten from by
            simp [List.append_assoc]]
          rw [List.drop_append_eq_append_drop]
          rw [List.length_append]
          simp
        have hchunk : ∀ c ∈ rest, ∀ ch ∈ c, ch = '\n' := by
          intro c hc ch hch
          have : ch ∈ rest.flatten := by
            rw [List.mem_flatten]
            exact ⟨c, hc, hch⟩
          rw [hrest] at this
          exact hdrop ch this
        have e1 : feedChunks (c1 :: c2 :: rest) = feedChunk (feedChunk {} c1) c2 := by
          unfold feedChunks
          rw [List.foldl_cons, List.foldl_cons]
          exact foldl_inert hchunk _ hst1
        have e2 : feedChunks ((c1 ++ c2) :: rest) = feedChunk {} (c1 ++ c2) := by
          unfold feedChunks
          rw [List.foldl_cons]
          exact foldl_inert hchunk _ hst2
        have e3 := ihn ((c1 ++ c2) :: rest)
          (by simp only [List.length_cons] at hlen ⊢; omega) hflat'
        rw [e1, hobs, ← e2, e3]

/-! ## Whole-transcript characterization (the delta accumulation law) -/

theorem contentStep_accum (st : ChatState) (c : Str) (hb : st.buffer = []) :
    contentStep st c = { answer := (accumDelta (st.answer, st.emits) c).1, buffer := [],
                         emits := (accumDelta (st.answer, st.emits) c).2 } := by
  obtain ⟨ans, buf, ems⟩ := st
  simp only at hb
  subst hb
  unfold contentStep accumDelta
  by_cases hce : c = []
  · subst hce
    simp
  · by_cases hans : ans = []
    · subst hans
      by_cases ht : trim c = []
      · simp [hce, ht, List.length_pos.mpr hce]
      · simp [hce, ht, List.length_pos.mpr hce, List.length_pos.mpr ht]
    · have h1 : ¬ ans.length < 1 := by
        simpa [Nat.lt_one_iff, List.length_eq_zero] using hans
      simp [hce, hans, h1, List.length_pos.mpr hce]

theorem transcript_cons (f : Frame) (fs : List Frame) :
    transcript (f :: fs) = frameBody f ++ '\n' :: transcript fs := by
  unfold transcript
  simp only [List.map_cons, List.flatten_cons, List.append_assoc, List.cons_append,
    List.nil_append]

theorem deltas_cons_delta (c : Str) (fs : List Frame) :
    deltas (.delta c :: fs) = c :: deltas fs := rfl

theorem deltas_cons_empty (fs : List Frame) :
    deltas (.empty :: fs) = deltas fs := rfl

theorem feedChunk_transcript (fs : List Frame) : ∀ (st : ChatState), st.buffer = [] →
    feedChunk st (transcript fs)
      = { answer := ((deltas fs).foldl accumDelta (st.answer, st.emits)).1,
          buffer := [],
          emits := ((deltas fs).foldl accumDelta (st.answer, st.emits)).2 } := by
  induction fs with
  | nil =>
    intro st hb
    obtain ⟨ans, buf, ems⟩ := st
    simp only at hb
    subst hb
    show feedChunk _ (([] : List Str).flatten ++ doneLine ++ ['\n']) = _
    rw [List.flatten_nil, List.nil_append]
    exact feedChunk_done_split [] doneLine_nlfree (by rw [List.nil_append])
  | cons f fs' ih =>
    intro st hb
    rw [transcript_cons]
    cases f with
    | empty =>
      rw [feedChunk_split _ (frameBody_nlfree .empty),
        processLines_undef_cons _ (by rw [hb, List.nil_append])]
      rw [show processLines st (splitNl (transcript fs'))
          = feedChunk st (transcript fs') from rfl]
      rw [ih st hb, deltas_cons_empty]
    | delta c =>
      rw [feedChunk_split _ (frameBody_nlfree (.delta c)),
        processLines_content_cons _ (by rw [hb, List.nil_append])]
      rw [show processLines (contentStep st c) (splitNl (transcript fs'))
          = feedChunk (contentStep st c) (transcript fs') from rfl]
      rw [ih _ (contentStep_buffer hb), deltas_cons_delta, List.foldl_cons,
        contentStep_accum st c hb]

/-- Feeding the whole transcript as one chunk accumulates exactly the delta
contents, with the reference fold. -/
theorem chat_whole_transcript (fs : List Frame) :
    (feedChunks [transcript fs]).answer = specAnswer (deltas fs)
    ∧ (feedChunks [transcript fs]).emits = specEmits (deltas fs) := by
  have h : feedChunks [transcript fs] = feedChunk {} (transcript fs) := rfl
  rw [h, feedChunk_transcript fs {} rfl]
  exact ⟨rfl, rfl⟩

theorem accumDelta_eq (ans : Str) (ems : List Str) (c : Str) :
    accumDelta (ans, ems) c =
      if c = [] then (ans, ems)
      else if ans = [] then (trim c, ems ++ (if trim c = [] then [] else [trim c]))
      else (ans ++ c, ems ++ [c]) := rfl

theorem accum_fold_append (cs : List Str) : ∀ ans ems, ans ≠ [] →
    (cs.foldl accumDelta (ans, ems)).1 = ans ++ cs.flatten := by
  induction cs with
  | nil =>
    intro ans ems _
    rw [List.flatten_nil, List.append_nil]
    rfl
  | cons c cs' ih =>
    intro ans ems hans
    rw [List.foldl_cons, List.flatten_cons]
    by_cases hc : c = []
    · subst hc
      rw [accumDelta_eq, if_pos rfl, ih ans ems hans, List.nil_append]
    · rw [accumDelta_eq, if_neg hc, if_neg hans,
        ih (ans ++ c) (ems ++ [c]) (by simp [hc]), List.append_assoc]

/-! ## Claim theorems: the streaming chat client (C2, C4, C10) -/

/-- The split-safety counterexample transcript: a delta frame `A`, a
well-formed content-less frame, a delta frame `B`, then the terminator. -/
def cexTranscript : Str := transcript [.delta (str "A"), .empty, .delta (str "B")]

/-- C2 (counterexample): splitting this valid SSE transcript at byte 60 (in
the middle of the content-less frame) and feeding the two chunks to the
streaming loop yields the answer `A`, not the answer `AB` that feeding the
whole transcript yields, because a completed content-less frame leaves the
stale carry-over buffer in place and corrupts every later line. -/
theorem chat_split_changes_answer :
    cexTranscript.take 60 ++ cexTranscript.drop 60 = cexTranscript
    ∧ (feedChunks [cexTranscript.take 60, cexTranscript.drop 60]).answer
      ≠ (feedChunks [cexTranscript]).answer := by
  constructor
  · exact List.take_append_drop 60 _
  · set_option maxRecDepth 10000 in decide

/-- C2 (amended): for every SSE transcript consisting of delta frames with
non-empty content followed by the `data: [DONE]` terminator, feeding any
partition of its characters into read chunks produces the same final answer
and the same sequence of sink emissions as feeding the whole transcript as
one chunk. -/
theorem chat_stream_split_safety (cs : List Str) (hcs : ∀ c ∈ cs, c ≠ [])
    (chunks : List Str)
    (hflat : chunks.flatten = transcript (cs.map Frame.delta)) :
    (feedChunks chunks).answer = (feedChunks [transcript (cs.map Frame.delta)]).answer
    ∧ (feedChunks chunks).emits = (feedChunks [transcript (cs.map Frame.delta)]).emits := by
  have h := feedChunks_eq_whole ((cs.map Frame.delta).map frameBody) (goodBodies cs hcs)
    chunks.length chunks (Nat.le_refl _) (by rw [hflat, transcript_linesText])
  rw [← transcript_linesText] at h
  exact ⟨congrArg Prod.fst h, congrArg Prod.snd h⟩

/-- Witness for the amended C2 at a concrete transcript and split. -/
theorem chat_stream_split_safety_witness :
    (∀ c ∈ [str " Hello", str "world"], c ≠ [])
    ∧ [(transcript ([str " Hello", str "world"].map Frame.delta)).take 50,
       (transcript ([str " Hello", str "world"].map Frame.delta)).drop 50].flatten
        = transcript ([str " Hello", str "world"].map Frame.delta)
    ∧ ((feedChunks [(transcript ([str " Hello", str "world"].map Frame.delta)).take 50,
          (transcript ([str " Hello", str "world"].map Frame.delta)).drop 50]).answer
        = (feedChunks [transcript ([str " Hello", str "world"].map Frame.delta)]).answer
      ∧ (feedChunks [(transcript ([str " Hello", str "world"].map Frame.delta)).take 50,
          (transcript ([str " Hello", str "world"].map Frame.delta)).drop 50]).emits
        = (feedChunks [transcript ([str " Hello", str "world"].map Frame.delta)]).emits) :=
  ⟨by set_option maxRecDepth 10000 in decide, by set_option maxRecDepth 10000 in decide,
    chat_stream_split_safety [str " Hello", str "world"]
      (by set_option maxRecDepth 10000 in decide) _
      (by set_option maxRecDepth 10000 in decide)⟩

/-- The transcript of the C4 counterexample: first delta ` hi `, second
delta `there`. -/
def c4Transcript : Str := transcript [.delta (str " hi "), .delta (str "there")]

/-- C4 (counterexample): the code trims the first non-empty delta on BOTH
sides (`partial.trim()`), so the answer for deltas ` hi `, `there` is
`hithere`, not the `hi there` that stripping only leading whitespace would
give; the first sink emission is likewise `hi`, not `hi `. -/
theorem chat_first_delta_trim_cex :
    (feedChunks [c4Transcript]).answer ≠ trimL (str " hi ") ++ str "there"
    ∧ (feedChunks [c4Transcript]).emits ≠ [trimL (str " hi "), str "there"] := by
  constructor
  · set_option maxRecDepth 10000 in decide
  · set_option maxRecDepth 10000 in decide

/-- C4 (amended): in the streaming path, the answer for a whole transcript
is the left fold of the delta contents in which every delta before the
first one with non-whitespace content contributes nothing, that first delta
is trimmed on both sides (and emitted trimmed), and every later delta is
appended and emitted verbatim; in particular, when the first delta's trim
is non-empty the answer is `trim(first) ++ concat(rest)`. -/
theorem chat_stream_answer_spec (fs : List Frame) :
    ((feedChunks [transcript fs]).answer = specAnswer (deltas fs)
      ∧ (feedChunks [transcript fs]).emits = specEmits (deltas fs))
    ∧ (∀ c rest2, deltas fs = c :: rest2 → trim c ≠ [] →
        (feedChunks [transcript fs]).answer = trim c ++ rest2.flatten) := by
  refine ⟨chat_whole_transcript fs, ?_⟩
  intro c rest2 hds htrim
  rw [(chat_whole_transcript fs).1, hds]
  unfold specAnswer
  rw [List.foldl_cons, accumDelta_eq,
    if_neg (show ¬ c = [] from fun hc => htrim (by rw [hc]; rfl)), if_pos rfl]
  exact accum_fold_append rest2 _ _ htrim

/-- Witness for the amended C4 at a concrete transcript. -/
theorem chat_stream_answer_spec_witness :
    (deltas [Frame.delta (str " hi "), Frame.delta (str "there")]
        = str " hi " :: [str "there"]
      ∧ trim (str " hi ") ≠ [])
    ∧ (feedChunks [transcript [Frame.delta (str " hi "), Frame.delta (str "there")]]).answer
      = trim (str " hi ") ++ [str "there"].flatten :=
  ⟨⟨by decide, by decide⟩,
    (chat_stream_answer_spec [Frame.delta (str " hi "), Frame.delta (str "there")]).2
      (str " hi ") [str "there"] (by set_option maxRecDepth 10000 in decide) (by decide)⟩

/-- C10 (counterexample): the terminator `data: [DONE]` is a non-empty line
that does not begin with `:` and does not parse as a complete data frame,
yet it is not stored in the carry-over buffer — the loop stops instead. -/
theorem chat_buffer_done_cex :
    doneLine ≠ [] ∧ doneLine.head? ≠ some ':' ∧ parse doneLine = PR.null
    ∧ (processLines {} [doneLine]).buffer ≠ doneLine := by decide

/-- C10 (amended): every non-empty line other than the literal terminator
that does not begin with `:` and does not parse as a complete `data: ` JSON
frame is stored in the carry-over buffer — with the answer and the sink
emissions unchanged, so the line is not discarded — and the next piece is
processed with that line prepended. -/
theorem chat_nondata_line_buffered (st : ChatState) (p : Str) (ps : List Str)
    (h0 : st.buffer ++ p ≠ []) (h1 : (st.buffer ++ p).head? ≠ some ':')
    (h2 : st.buffer ++ p ≠ doneLine) (h3 : parse (st.buffer ++ p) = PR.null) :
    ∃ st', processLines st (p :: ps) = processLines st' ps
      ∧ st'.buffer = st.buffer ++ p
      ∧ st'.answer = st.answer ∧ st'.emits = st.emits :=
  ⟨{ st with buffer := st.buffer ++ p }, processLines_partial_cons ps h0 h1 h2 h3,
    rfl, rfl, rfl⟩

/-- Witness for the amended C10: an SSE `event:` field line is buffered and
merged with the following line. -/
theorem chat_nondata_line_buffered_witness :
    ∃ st', processLines {} [str "event: foo", str "data: x"]
        = processLines st' [str "data: x"]
      ∧ st'.buffer = ({} : ChatState).buffer ++ str "event: foo"
      ∧ st'.answer = ({} : ChatState).answer ∧ st'.emits = ({} : ChatState).emits :=
  chat_nondata_line_buffered {} (str "event: foo") [str "data: x"]
    (by decide) (by decide) (by decide) (by decide)

/-! ## The citation rewriters (`push`/`flush` from `interact`, `format` from `poll`)

`interact` streams the answer through `push`, which repeatedly applies the
regex `\[citation:(\d+)\]` with a persistent `lastIndex`, renumbers
citations densely in order of first appearance, colours them with ANSI
escapes, and holds back a 36-character lookahead window; `flush` emits the
right-trimmed remainder.  `poll`'s `format` does the plain-text variant by
scanning `indexOf('[citation:')` and reading the single character at offset
10.  Both guard the number with JS *string* comparisons against `'0'` and
`'9'`, and both splice exactly 12 characters out of the buffer. -/

/-- ANSI gray escape (`GRAY` in the source). -/
def GRAY : Str := str "\x1b[90m"

/-- ANSI reset escape (`NORMAL` in the source). -/
def NORMAL : Str := str "\x1b[0m"

/-- `MAX_LOOKAHEAD = 3 * '[citation:x]'.length` from `interact`. -/
def MAX_LOOKAHEAD : Nat := 36

/-- JS string `<` (lexicographic on code units). -/
def strLt : Str → Str → Bool
  | [], [] => false
  | [], _ :: _ => true
  | _ :: _, [] => false
  | a :: x, b :: y => if a < b then true else if b < a then false else strLt x y

/-- JS string `<=`. -/
def strLe (s t : Str) : Bool := !(strLt t s)

/-- Match of `/\[citation:(\d+)\]/` anchored at the head of `s`: the captured
digit group when `s` starts with a complete marker. -/
def citDigits (s : Str) : Option Str :=
  if s.take 10 = str "[citation:" then
    let ds := (s.drop 10).takeWhile Char.isDigit
    if ds ≠ [] ∧ (s.drop (10 + ds.length)).take 1 = [']'] then some ds else none
  else none

/-- First match of the citation pattern in `s`: its index and digit group
(`PATTERN.exec` relative to the search start). -/
def findCit : Str → Option (Nat × Str)
  | [] => none
  | c :: rest =>
    match citDigits (c :: rest) with
    | some ds => some (0, ds)
    | none => (findCit rest).map (fun p => (p.1 + 1, p.2))

/-- `parseInt(ds, 10)` on a digit string. -/
def digitsVal (ds : Str) : Nat := ds.foldl (fun n c => 10 * n + (c.toNat - 48)) 0

/-- Decimal rendering of a number (template interpolation of `citation`). -/
def natDigits (n : Nat) : Str := (Nat.repr n).data

/-- JS `refs.indexOf(n)`, with `none` standing for `-1`. -/
def listIndexOf (n : Nat) : List Nat → Option Nat
  | [] => none
  | m :: ms => if m = n then some 0 else (listIndexOf n ms).map (· + 1)

/-- The `display` object of `interact`: the held-back buffer and the list of
original citation numbers in order of first appearance. -/
structure Display where
  buffer : Str
  refs : List Nat
deriving Repr, DecidableEq

/-- The `while ((match = PATTERN.exec(buffer)))` loop of `push`.  `exec`
searches from the regex's persistent `lastIndex`; after a match it sets
`lastIndex` to the match end (computed on the buffer *before* splicing).  A
number passing the string-compare guard is renumbered and the buffer is
spliced at `index`/`index + 12`; a failing number is skipped.  The loop runs
out of matches after at most one iteration per 12 characters, so the fuel
`buffer.length + 1` is never exhausted on the inputs used here. -/
def pushLoop : Nat → Str → List Nat → Nat → Str × List Nat
  | 0, buf, refs, _ => (buf, refs)
  | Nat.succ fuel, buf, refs, lastIdx =>
    match findCit (buf.drop lastIdx) with
    | none => (buf, refs)
    | some (j, ds) =>
      let index := lastIdx + j
      let newLast := index + 11 + ds.length
      if strLe (str "0") ds && strLe ds (str "9") then
        let num := digitsVal ds
        let refs' := if (listIndexOf num refs).isSome then refs else refs ++ [num]
        let citation := 1 + (listIndexOf num refs').getD 0
        let ref := GRAY ++ '[' :: (natDigits citation ++ ']' :: NORMAL)
        pushLoop fuel (buf.take index ++ ref ++ buf.drop (index + 12)) refs' newLast
      else
        pushLoop fuel buf refs newLast

/-- `push` from `interact`: append the incoming text, run the rewrite loop,
then emit everything but the last `MAX_LOOKAHEAD` characters.  The second
component is what `process.stdout.write` receives. -/
def push (d : Display) (text : Str) : Display × Str :=
  let buffer := d.buffer ++ text
  let r := pushLoop (buffer.length + 1) buffer d.refs 0
  if r.1.length > MAX_LOOKAHEAD then
    ({ buffer := r.1.drop (r.1.length - MAX_LOOKAHEAD), refs := r.2 },
     r.1.take (r.1.length - MAX_LOOKAHEAD))
  else ({ buffer := r.1, refs := r.2 }, [])

/-- `flush` from `interact`: emit the right-trimmed buffer and reset. -/
def flush (d : Display) : Display × Str :=
  ({ buffer := [], refs := [] }, trimR d.buffer)

/-- Everything written to stdout when `text` arrives as one streamed chunk
and the display is then flushed. -/
def pushFlushOut (text : Str) : Str :=
  let r := push { buffer := [], refs := [] } text
  r.2 ++ (flush r.1).2

/-- The `while (true)` rewrite loop of `poll`'s `format`: find
`'[citation:'`, read the single character at offset 10, and splice in the
plain `[k]` on a digit.  On a non-digit the JS loop never advances (an
infinite loop in the source); the fuel models that by returning the buffer
unchanged once exhausted, which no input used here triggers. -/
def formatLoop : Nat → Str → List Nat → Str × List Nat
  | 0, buf, refs => (buf, refs)
  | Nat.succ fuel, buf, refs =>
    match indexOf? (str "[citation:") buf with
    | none => (buf, refs)
    | some index =>
      let number := (buf.drop (index + 10)).take 1
      if strLe (str "0") number && strLe number (str "9") then
        let num := digitsVal number
        let refs' := if (listIndexOf num refs).isSome then refs else refs ++ [num]
        let citation := 1 + (listIndexOf num refs').getD 0
        formatLoop fuel
          (buf.take index ++ '[' :: (natDigits citation ++ [']']) ++ buf.drop (index + 12)) refs'
      else formatLoop fuel buf refs

/-- `format` from `poll`, with the references abstracted to their `url`
fields (the only field `format` reads).  The appendix is added when
`references.length >= refs.length`; out-of-range `references[ref - 1]`
(which would throw in JS) is not reached by any input used here. -/
def format (answer : Str) (references : Option (List Str)) : Str :=
  let r := formatLoop (answer.length + 1) answer []
  match references with
  | some rs =>
    if r.2.length ≤ rs.length then
      r.1 ++ str "\n\nReferences:\n" ++
        (r.2.enum.map (fun p =>
          '[' :: (natDigits (p.1 + 1) ++ str "] " ++ rs.getD (p.2 - 1) [] ++ str "\n"))).flatten
    else r.1
  | none => r.1

/-- C7 counterexample: the interactive rewriter (`push` then `flush`) does
not output the literal `foo[1] bar[2] baz[1]` — it wraps every rewritten
citation in ANSI colour escapes. -/
theorem citation_renumber_ansi_cex :
    pushFlushOut (str "foo[citation:3] bar[citation:1] baz[citation:3]")
      ≠ str "foo[1] bar[2] baz[1]" := by
  decide

/-- C7 (amended): dense renumbering by first appearance holds, with the
exact outputs as the code produces them — `push`/`flush` emit the renumbered
text with each `[k]` wrapped in `GRAY`/`NORMAL` ANSI escapes, and `poll`'s
plain-text `format` yields exactly `foo[1] bar[2] baz[1]` (a repeated
original number reuses its assigned number). -/
theorem citation_dense_renumber :
    pushFlushOut (str "foo[citation:3] bar[citation:1] baz[citation:3]")
      = str "foo" ++ GRAY ++ str "[1]" ++ NORMAL ++ str " bar" ++ GRAY ++ str "[2]"
        ++ NORMAL ++ str " baz" ++ GRAY ++ str "[1]" ++ NORMAL
    ∧ format (str "foo[citation:3] bar[citation:1] baz[citation:3]") (some [])
      = str "foo[1] bar[2] baz[1]" := by
  constructor
  · decide
  · decide

/-- C8: the two-digit marker `[citation:12]` is NOT left as literal text.
The guard `number >= '0' && number <= '9'` is a JS *string* comparison, so
`"12"` passes it; the splice then removes only 12 of the 13 matched
characters, leaving a stray `]` after the recoloured `[1]`. -/
theorem citation_two_digit_mangled :
    pushFlushOut (str "x[citation:12]y")
      = str "x" ++ GRAY ++ str "[1]" ++ NORMAL ++ str "]y"
    ∧ pushFlushOut (str "x[citation:12]y") ≠ str "x[citation:12]y" := by
  constructor
  · decide
  · decide

end Gamal

/-! ## Verification of the labelled-field codec round trip (C1)

The lemmas below characterise `lastIndexOf` through occurrence predicates,
localise pattern occurrences in segment-structured text, and compute `trim`
on padded values, culminating in the round-trip theorem for
`deconstruct ∘ construct`. -/
namespace Gamal

theorem occursB_iff {pat s : Str} : occursB pat s = true ↔ OccursIn pat s := by
  induction s with
  | nil =>
    simp only [occursB, OccursIn, OccursAt, List.drop_nil]
    constructor
    · intro h
      exact ⟨0, List.isPrefixOf_iff_prefix.mp h⟩
    · rintro ⟨i, hi⟩
      exact List.isPrefixOf_iff_prefix.mpr hi
  | cons c rest ih =>
    simp only [occursB, Bool.or_eq_true, List.isPrefixOf_iff_prefix, ih]
    constructor
    · rintro (h | ⟨i, hi⟩)
      · exact ⟨0, h⟩
      · exact ⟨i + 1, hi⟩
    · rintro ⟨i, hi⟩
      cases i with
      | zero => exact Or.inl hi
      | succ j => exact Or.inr ⟨j, hi⟩

theorem not_occursIn_nil {pat : Str} (h : pat ≠ []) : ¬ OccursIn pat [] := by
  rintro ⟨i, hi⟩
  simp only [OccursAt, List.drop_nil] at hi
  exact h (List.prefix_nil.mp hi)

theorem occursAt_drop {pat s : Str} {k j : Nat} :
    OccursAt pat (s.drop k) j ↔ OccursAt pat s (k + j) := by
  simp only [OccursAt, List.drop_drop]

theorem prefix_flip {pat a b : Str} (h : pat <+: a ++ b) (hl : a.length ≤ pat.length) :
    a <+: pat := by
  obtain ⟨u, hu⟩ := h
  have ha : a = pat.take a.length := by
    have h1 : (a ++ b).take a.length = a := List.take_left a b
    rw [← hu, List.take_append_of_le_length hl] at h1
    exact h1.symm
  exact ha ▸ List.take_prefix _ _

theorem drop_append_ge {A B : Str} {q : Nat} (h : A.length ≤ q) :
    (A ++ B).drop q = B.drop (q - A.length) := by
  conv_lhs => rw [show q = A.length + (q - A.length) by omega]
  rw [← List.drop_drop, List.drop_left]

theorem lastIdxFrom_eq_some {pat s : Str} {i : Nat} :
    ∀ n, i ≤ n → OccursAt pat s i →
      (∀ j, i < j → j ≤ n → ¬ OccursAt pat s j) → lastIdxFrom pat s n = some i
  | 0, hin, hocc, _ => by
    have hi0 : i = 0 := Nat.le_zero.mp hin
    subst hi0
    have hpp : pat.isPrefixOf s = true :=
      List.isPrefixOf_iff_prefix.mpr (by simpa [OccursAt] using hocc)
    simp only [lastIdxFrom, hpp, if_true]
  | n + 1, hin, hocc, hno => by
    by_cases hp : pat.isPrefixOf (s.drop (n + 1)) = true
    · have hocc' : OccursAt pat s (n + 1) := List.isPrefixOf_iff_prefix.mp hp
      have : i = n + 1 := by
        by_contra hne
        exact hno (n + 1) (Nat.lt_of_le_of_ne hin hne) (Nat.le_refl _) hocc'
      subst this
      simp only [lastIdxFrom, hp, if_true]
    · have hne : i ≠ n + 1 := fun he => hp (List.isPrefixOf_iff_prefix.mpr (he ▸ hocc))
      have hin' : i ≤ n := Nat.lt_succ_iff.mp (Nat.lt_of_le_of_ne hin hne)
      have := @lastIdxFrom_eq_some pat s i n hin' hocc
        (fun j hj hjn => hno j hj (Nat.le_succ_of_le hjn))
      simp only [lastIdxFrom, if_neg hp, this]

theorem occursAt_lt_length {pat s : Str} {i : Nat} (hp : pat ≠ [])
    (h : OccursAt pat s i) : i < s.length := by
  by_contra hge
  have : s.drop i = [] := List.drop_eq_nil_of_le (Nat.le_of_not_lt hge)
  rw [OccursAt, this] at h
  exact hp (List.prefix_nil.mp h)

theorem lastIndexOf_eq_some {pat s : Str} {i : Nat} (hp : pat ≠ [])
    (hocc : OccursAt pat s i) (hno : ¬ OccursIn pat (s.drop (i + 1))) :
    lastIndexOf pat s = some i := by
  have hlt : i < s.length := occursAt_lt_length hp hocc
  refine lastIdxFrom_eq_some s.length (Nat.le_of_lt hlt) hocc ?_
  intro j hj _ hoccj
  have : OccursAt pat (s.drop (i + 1)) (j - (i + 1)) := by
    rw [occursAt_drop, Nat.add_sub_cancel' hj]
    exact hoccj
  exact hno ⟨_, this⟩

theorem lastIdxFrom_eq_none {pat s : Str} (hno : ¬ OccursIn pat s) :
    ∀ n, lastIdxFrom pat s n = none
  | 0 => by
    have : ¬ pat.isPrefixOf s = true := fun h =>
      hno ⟨0, by simpa [OccursAt] using List.isPrefixOf_iff_prefix.mp h⟩
    simp only [lastIdxFrom, if_neg this]
  | n + 1 => by
    have : ¬ pat.isPrefixOf (s.drop (n + 1)) = true := fun h =>
      hno ⟨n + 1, List.isPrefixOf_iff_prefix.mp h⟩
    simp only [lastIdxFrom, if_neg this, lastIdxFrom_eq_none hno n]

theorem lastIndexOf_eq_none {pat s : Str} (hno : ¬ OccursIn pat s) :
    lastIndexOf pat s = none := lastIdxFrom_eq_none hno s.length

/-- Decidable check that pattern `pat` has no full occurrence strictly inside
the concrete segment head `X`, and that no proper suffix of `X` begins an
occurrence that could continue past `X` (used to localize occurrences). -/
def segOk (pat X : Str) : Bool :=
  (List.range X.length).all (fun q =>
    if q + pat.length ≤ X.length then !(pat.isPrefixOf (X.drop q))
    else !((X.drop q).isPrefixOf pat))

theorem segOk_inside {pat X : Str} (h : segOk pat X = true) {q : Nat}
    (hq : q + pat.length ≤ X.length) (hp : pat ≠ []) : ¬ (pat <+: X.drop q) := by
  intro hpre
  have hqlt : q < X.length := by
    have : 0 < pat.length := List.length_pos.mpr hp
    omega
  have := (List.all_eq_true.mp h) q (List.mem_range.mpr hqlt)
  rw [if_pos hq] at this
  simp only [Bool.not_eq_true'] at this
  exact absurd (List.isPrefixOf_iff_prefix.mpr hpre) (by simp [this])

theorem segOk_straddle {pat X : Str} (h : segOk pat X = true) {q : Nat}
    (hq : q < X.length) (hgt : X.length < q + pat.length) : ¬ (X.drop q <+: pat) := by
  intro hpre
  have := (List.all_eq_true.mp h) q (List.mem_range.mpr hq)
  rw [if_neg (by omega)] at this
  simp only [Bool.not_eq_true'] at this
  exact absurd (List.isPrefixOf_iff_prefix.mpr hpre) (by simp [this])

theorem noOccSeg {pat X v w : Str} (hp : pat ≠ []) (hnl : '\n' ∉ pat)
    (hseg : segOk pat X = true) (hv : ¬ OccursIn pat v) (hvnl : '\n' ∉ v)
    (hw : w = [] ∨ w = ['\n']) : ¬ OccursIn pat (X ++ (v ++ w)) := by
  rintro ⟨q, hq⟩
  rw [OccursAt] at hq
  by_cases hq1 : q < X.length
  · rw [List.drop_append_of_le_length (Nat.le_of_lt hq1)] at hq
    by_cases hq2 : q + pat.length ≤ X.length
    · have hpre : pat <+: X.drop q := by
        refine prefix_of_append_left hq ?_
        rw [List.length_drop]
        omega
      exact segOk_inside hseg hq2 hp hpre
    · have hpre : X.drop q <+: pat := by
        refine prefix_flip hq ?_
        rw [List.length_drop]
        omega
      exact segOk_straddle hseg hq1 (by omega) hpre
  · have hqX : X.length ≤ q := Nat.le_of_not_lt hq1
    rw [drop_append_ge hqX] at hq
    set j := q - X.length with hj
    by_cases hj1 : j < v.length
    · rw [List.drop_append_of_le_length (Nat.le_of_lt hj1)] at hq
      by_cases hj2 : j + pat.length ≤ v.length
      · have hpre : pat <+: v.drop j := by
          refine prefix_of_append_left hq ?_
          rw [List.length_drop]
          omega
        exact hv ⟨j, hpre⟩
      · have hpre : v.drop j <+: pat := by
          refine prefix_flip hq ?_
          rw [List.length_drop]
          omega
        have hlen : pat.length ≤ (v.drop j).length + w.length := by
          have := hq.length_le
          rw [List.length_append] at this
          exact this
        have hdj : (v.drop j).length = v.length - j := List.length_drop j v
        rcases hw with hw | hw
        · subst hw
          rw [List.append_nil] at hq
          have h1 := hq.length_le
          omega
        · subst hw
          have h1 := hq.length_le
          rw [List.length_append, List.length_singleton] at h1
          have hlen2 : pat.length = (v.drop j).length + 1 := by omega
          have heq : pat = v.drop j ++ ['\n'] := by
            refine List.IsPrefix.eq_of_length hq ?_
            rw [List.length_append, List.length_singleton, hlen2]
          apply hnl
          rw [heq]
          exact List.mem_append_right _ (List.mem_singleton.mpr rfl)
    · have hjv : v.length ≤ j := Nat.le_of_not_lt hj1
      rw [drop_append_ge hjv] at hq
      rcases hw with hw | hw
      · subst hw
        rw [List.drop_nil] at hq
        exact hp (List.prefix_nil.mp hq)
      · subst hw
        rcases Nat.eq_zero_or_pos (j - v.length) with hz | hpos
        · rw [hz, List.drop_zero] at hq
          rcases prefix_singleton_cases hq with h | h
          · exact hp h
          · exact hnl (h ▸ List.mem_singleton.mpr rfl)
        · have : (['\n'] : Str).drop (j - v.length) = [] :=
            List.drop_eq_nil_of_le (by simp only [List.length_singleton]; omega)
          rw [this] at hq
          exact hp (List.prefix_nil.mp hq)

theorem not_occursIn_append_nl {pat x y : Str} (hp : pat ≠ []) (hnl : '\n' ∉ pat)
    (hx : ¬ OccursIn pat x) (hy : ¬ OccursIn pat y) :
    ¬ OccursIn pat (x ++ '\n' :: y) := by
  rintro ⟨q, hq⟩
  rw [OccursAt] at hq
  by_cases hq1 : q ≤ x.length
  · rw [List.drop_append_of_le_length hq1] at hq
    by_cases hq2 : q + pat.length ≤ x.length
    · have hpre : pat <+: x.drop q := by
        refine prefix_of_append_left hq ?_
        rw [List.length_drop]
        omega
      exact hx ⟨q, hpre⟩
    · have hidx : x.length - q < pat.length := by omega
      obtain ⟨u, hu⟩ := hq
      have hlen : (x.drop q).length = x.length - q := by
        rw [List.length_drop]
      have h2 : ('\n' :: y : Str) = pat.drop (x.length - q) ++ u := by
        have e1 : (x.drop q ++ '\n' :: y).drop (x.length - q) = '\n' :: y := by
          rw [← hlen, List.drop_left]
        have e2 : (pat ++ u).drop (x.length - q) = pat.drop (x.length - q) ++ u :=
          List.drop_append_of_le_length (Nat.le_of_lt hidx)
        rw [← e1, ← hu, e2]
      cases hdp : pat.drop (x.length - q) with
      | nil =>
        have : pat.length - (x.length - q) = 0 := by
          rw [← List.length_drop, hdp]
          rfl
        omega
      | cons c r =>
        rw [hdp, List.cons_append] at h2
        have hc : c = '\n' := (List.cons.injEq _ _ _ _ ▸ h2).1.symm
        apply hnl
        have : '\n' ∈ pat.drop (x.length - q) := by
          rw [hdp, hc]
          exact List.mem_cons_self _ _
        exact List.drop_subset _ pat this
  · have hq2 : x.length + 1 ≤ q := by omega
    have hdrop : (x ++ '\n' :: y).drop q = y.drop (q - (x.length + 1)) := by
      have hxy : x ++ '\n' :: y = (x ++ ['\n']) ++ y := by
        simp [List.append_assoc]
      have hle : (x ++ ['\n']).length ≤ q := by
        simp only [List.length_append, List.length_singleton]
        omega
      rw [hxy, drop_append_ge hle]
      congr 1
      simp only [List.length_append, List.length_singleton]
    rw [hdrop] at hq
    exact hy ⟨_, hq⟩

end Gamal

namespace Gamal

theorem length_dropWhile_le (p : Char → Bool) (l : Str) :
    (l.dropWhile p).length ≤ l.length := (List.dropWhile_suffix p).length_le

theorem dropWhile_eq_self_head {p : Char → Bool} {c : Char} {l : Str}
    (h : List.dropWhile p (c :: l) = c :: l) : p c = false := by
  cases hc : p c
  · rfl
  · exfalso
    rw [List.dropWhile_cons, hc, if_pos rfl] at h
    have h1 := congrArg List.length h
    have h2 := length_dropWhile_le p l
    simp only [List.length_cons] at h1
    omega

theorem trim_parts {v : Str} (h : trim v = v) : trimL v = v ∧ trimR v = v := by
  have h1 : (trimR v).length ≤ v.length := by
    unfold trimR
    rw [List.length_reverse]
    calc (v.reverse.dropWhile isWs).length ≤ v.reverse.length := length_dropWhile_le _ _
    _ = v.length := List.length_reverse v
  have h2 : (trimL (trimR v)).length ≤ (trimR v).length := length_dropWhile_le _ _
  have h3 : (trimL (trimR v)).length = v.length := by
    rw [show trimL (trimR v) = v from h]
  have h4 : (trimR v).length = v.length := by omega
  have h5 : trimR v = v := by
    have hsuf : v.reverse.dropWhile isWs <:+ v.reverse := List.dropWhile_suffix _
    have heq : v.reverse.dropWhile isWs = v.reverse := by
      refine List.IsSuffix.eq_of_length hsuf ?_
      unfold trimR at h4
      rw [List.length_reverse] at h4
      rw [h4, List.length_reverse]
    unfold trimR
    rw [heq, List.reverse_reverse]
  have h6 : trimL v = v := by
    have h7 := h
    unfold trim at h7
    rw [h5] at h7
    exact h7
  exact ⟨h6, h5⟩

theorem trimL_cons_ws {v : Str} {c : Char} (hc : isWs c = true) :
    trimL (c :: v) = trimL v := by
  unfold trimL
  rw [List.dropWhile_cons, hc, if_pos rfl]

theorem reverse_dropWhile_self {v : Str} (hv : v ≠ []) (h : trimR v = v) :
    ∀ x : Str, List.dropWhile isWs (v.reverse ++ x) = v.reverse ++ x := by
  intro x
  have hre : v.reverse.dropWhile isWs = v.reverse := by
    have h2 := congrArg List.reverse h
    unfold trimR at h2
    rw [List.reverse_reverse] at h2
    exact h2
  obtain ⟨d, u, hdu⟩ : ∃ d u, v.reverse = d :: u := by
    cases hr : v.reverse with
    | nil => exact absurd (by simpa using congrArg List.reverse hr) hv
    | cons d u => exact ⟨d, u, rfl⟩
  have hd : isWs d = false := dropWhile_eq_self_head (by rw [← hdu]; exact hre)
  rw [hdu, List.cons_append, List.dropWhile_cons, hd]
  simp

theorem trimR_cons {v : Str} {c : Char} (hv : v ≠ []) (h : trimR v = v) :
    trimR (c :: v) = c :: v := by
  unfold trimR
  rw [List.reverse_cons, reverse_dropWhile_self hv h [c], List.reverse_append,
    List.reverse_reverse, List.reverse_singleton, List.singleton_append]

theorem trim_pad0 {v : Str} (hv : v ≠ []) (h : trim v = v) : trim (' ' :: v) = v := by
  obtain ⟨hL, hR⟩ := trim_parts h
  unfold trim
  rw [trimR_cons hv hR, trimL_cons_ws (show isWs ' ' = true from rfl), hL]

theorem trimR_pad1 {v : Str} (hv : v ≠ []) (h : trimR v = v) :
    trimR (' ' :: (v ++ ['\n'])) = ' ' :: v := by
  unfold trimR
  have h1 : (' ' :: (v ++ ['\n'])).reverse = '\n' :: (v.reverse ++ [' ']) := by
    rw [List.reverse_cons, List.reverse_append, List.reverse_singleton]
    rfl
  rw [h1, List.dropWhile_cons, show isWs '\n' = true from rfl, if_pos rfl,
    reverse_dropWhile_self hv h [' '], List.reverse_append, List.reverse_reverse,
    List.reverse_singleton, List.singleton_append]

theorem trim_pad1 {v : Str} (hv : v ≠ []) (h : trim v = v) :
    trim (' ' :: (v ++ ['\n'])) = v := by
  obtain ⟨hL, hR⟩ := trim_parts h
  unfold trim
  rw [trimR_pad1 hv hR, trimL_cons_ws (show isWs ' ' = true from rfl), hL]

theorem firstLine_nlfree {v : Str} (h : '\n' ∉ v) : firstLine v = v := by
  unfold firstLine
  induction v with
  | nil => rfl
  | cons c rest ih =>
    have hc : c ≠ '\n' := fun hh => h (hh ▸ List.mem_cons_self c rest)
    have hr : '\n' ∉ rest := fun hm => h (List.mem_cons_of_mem c hm)
    rw [List.takeWhile_cons, if_pos (by simpa using hc)]
    unfold firstLine at ih
    rw [ih hr]

theorem replaceFirst_prefix {pat x : Str} (hp : pat ≠ []) :
    replaceFirst pat [] (pat ++ x) = x := by
  obtain ⟨c, pat', hpc⟩ : ∃ c pat', pat = c :: pat' := by
    cases pat with
    | nil => exact absurd rfl hp
    | cons c p => exact ⟨c, p, rfl⟩
  have hidx : indexOf? pat (pat ++ x) = some 0 := by
    conv_lhs => rw [hpc, List.cons_append]
    rw [indexOf?]
    rw [if_pos (List.isPrefixOf_iff_prefix.mpr
      (by rw [← List.cons_append, ← hpc]; exact List.prefix_append _ _))]
  unfold replaceFirst
  rw [hidx]
  simp only [List.take_zero, List.nil_append, Nat.zero_add]
  rw [List.drop_left]

theorem loop_skip {M s : Str} {ms : List Str} {p : Parts}
    (h : ¬ OccursIn (M ++ [':']) s) :
    deconstructLoop (M :: ms) s p = deconstructLoop ms s p := by
  rw [deconstructLoop, lastIndexOf_eq_none h]

theorem deconstructLoop_cons_some {m s : Str} {pos : Nat} {p : Parts} {ms : List Str}
    (h : lastIndexOf (m ++ [':']) s = some pos) :
    deconstructLoop (m :: ms) s p
      = deconstructLoop ms (s.take pos)
          (setKey p m (firstLine (trim (s.drop (pos + m.length + 1))))) := by
  rw [deconstructLoop, h]

theorem loop_step {M P v : Str} {ms : List Str} {p : Parts}
    (hv : v ≠ []) (hvt : trim v = v) (hvnl : '\n' ∉ v)
    (hocc : ¬ OccursIn (M ++ [':']) v) (hMnl : '\n' ∉ M ++ [':'])
    (hseg : segOk (M ++ [':']) ((M ++ [':', ' ']).drop 1) = true) :
    deconstructLoop (M :: ms) (P ++ ((M ++ [':', ' ']) ++ (v ++ ['\n']))) p
      = deconstructLoop ms P (setKey p M v) := by
  have hpne : (M ++ [':'] : Str) ≠ [] := by simp
  have hocc0 : OccursAt (M ++ [':']) (P ++ ((M ++ [':', ' ']) ++ (v ++ ['\n']))) P.length := by
    rw [OccursAt, List.drop_left]
    rw [show (M ++ [':', ' '] : Str) = (M ++ [':']) ++ [' '] from by simp, List.append_assoc]
    exact List.prefix_append _ _
  have hlater : ¬ OccursIn (M ++ [':'])
      ((P ++ ((M ++ [':', ' ']) ++ (v ++ ['\n']))).drop (P.length + 1)) := by
    have hd : (P ++ ((M ++ [':', ' ']) ++ (v ++ ['\n']))).drop (P.length + 1)
        = ((M ++ [':', ' ']).drop 1) ++ (v ++ ['\n']) := by
      rw [drop_append_ge (by omega), Nat.add_sub_cancel_left,
        List.drop_append_of_le_length (by simp)]
    rw [hd]
    exact noOccSeg hpne hMnl hseg hocc hvnl (Or.inr rfl)
  have hlio : lastIndexOf (M ++ [':']) (P ++ ((M ++ [':', ' ']) ++ (v ++ ['\n'])))
      = some P.length := lastIndexOf_eq_some hpne hocc0 hlater
  rw [deconstructLoop_cons_some hlio]
  have htake : (P ++ ((M ++ [':', ' ']) ++ (v ++ ['\n']))).take P.length = P :=
    List.take_left P _
  have hdrop : (P ++ ((M ++ [':', ' ']) ++ (v ++ ['\n']))).drop (P.length + M.length + 1)
      = ' ' :: (v ++ ['\n']) := by
    rw [show P.length + M.length + 1 = P.length + (M.length + 1) from by omega,
      drop_append_ge (by omega), Nat.add_sub_cancel_left,
      List.drop_append_of_le_length (by simp),
      show (M ++ [':', ' '] : Str).drop (M.length + 1) = [' '] from by
        rw [drop_append_ge (by simp), Nat.add_sub_cancel_left]
        rfl]
    rfl
  rw [hdrop, htake, trim_pad1 hv hvt, firstLine_nlfree hvnl]

end Gamal

namespace Gamal

/-- The fully-populated six-key mapping of C1 (`inquiry` absent). -/
def sixParts (t l th k o tp : Str) : Parts :=
  ⟨none, some t, some l, some th, some k, some o, some tp⟩

/-- One `MARKER: value` line of `construct`'s output, trailing newline
included. -/
def seg (M : String) (v : Str) : Str := (str M ++ [':', ' ']) ++ (v ++ ['\n'])

theorem construct_full {t l th k o tp : Str} (ht : t ≠ []) (hl : l ≠ []) (hth : th ≠ [])
    (hk : k ≠ []) (ho : o ≠ []) (htp : tp ≠ []) :
    construct (sixParts t l th k o tp)
      = seg "TOOL" t ++ (seg "LANGUAGE" l ++ (seg "THOUGHT" th ++ (seg "KEYPHRASES" k
        ++ (seg "OBSERVATION" o ++ ((str "TOPIC" ++ [':']) ++ (' ' :: tp)))))) := by
  have g1 : getKey (sixParts t l th k o tp) (str "INQUIRY") = none := rfl
  have g2 : getKey (sixParts t l th k o tp) (str "TOOL") = some t := rfl
  have g3 : getKey (sixParts t l th k o tp) (str "LANGUAGE") = some l := rfl
  have g4 : getKey (sixParts t l th k o tp) (str "THOUGHT") = some th := rfl
  have g5 : getKey (sixParts t l th k o tp) (str "KEYPHRASES") = some k := rfl
  have g6 : getKey (sixParts t l th k o tp) (str "OBSERVATION") = some o := rfl
  have g7 : getKey (sixParts t l th k o tp) (str "TOPIC") = some tp := rfl
  unfold construct
  rw [PREDEFINED_KEYS]
  simp only [List.filter_cons, List.filter_nil, g1, g2, g3, g4, g5, g6, g7, truthy,
    decide_eq_true_eq, ht, hl, hth, hk, ho, htp, if_true, if_false, ite_not,
    List.map_cons, List.map_nil, Option.getD_some, joinNl, List.intercalate]
  simp only [Bool.false_eq_true, if_false]
  simp only [str] at g2 g3 g4 g5 g6 g7
  simp [List.intersperse, str, seg, g2, g3, g4, g5, g6, g7, List.append_assoc]

theorem seg_cons_shape (M : String) (v rest : Str) :
    seg M v ++ rest = ((str M ++ [':', ' ']) ++ v) ++ '\n' :: rest := by
  unfold seg
  simp [List.append_assoc]

theorem seg_shape0 (M : String) (v : Str) :
    seg M v = ((str M ++ [':', ' ']) ++ v) ++ '\n' :: [] := by
  unfold seg
  simp [List.append_assoc]

theorem loop_step' {M' : String} {P v : Str} {ms : List Str} {p : Parts}
    (hv : v ≠ []) (hvt : trim v = v) (hvnl : '\n' ∉ v)
    (hocc : ¬ OccursIn (str M' ++ [':']) v) (hMnl : '\n' ∉ str M' ++ [':'])
    (hseg : segOk (str M' ++ [':']) ((str M' ++ [':', ' ']).drop 1) = true) :
    deconstructLoop (str M' :: ms) (P ++ seg M' v) p
      = deconstructLoop ms P (setKey p (str M') v) :=
  loop_step hv hvt hvnl hocc hMnl hseg

theorem occursB_false {pat s : Str} : occursB pat s = false ↔ ¬ OccursIn pat s := by
  rw [← occursB_iff]
  cases occursB pat s <;> simp

theorem noOccSeg0 {pat X v : Str} (hp : pat ≠ []) (hnl : '\n' ∉ pat)
    (hseg : segOk pat X = true) (hv : ¬ OccursIn pat v) (hvnl : '\n' ∉ v) :
    ¬ OccursIn pat (X ++ v) := by
  have h := noOccSeg hp hnl hseg hv hvnl (Or.inl rfl)
  rwa [List.append_nil] at h

theorem deconstruct_some {text : Str} {start : Nat}
    (h : lastIndexOf (str "TOPIC" ++ [':']) text = some start) :
    deconstruct text = deconstructLoop PREDEFINED_KEYS.reverse (text.take start)
      { topic := some (trim (replaceFirst (str "TOPIC" ++ [':']) [] (text.drop start))) } := by
  simp only [deconstruct, h]

/-- C1 (amended): the six-key round trip holds when every value is
non-empty, trim-stable, newline-free and contains no `MARKER:` substring:
`deconstruct` then recovers from `construct`'s output exactly the mapping it
was given. -/
theorem codec_roundtrip (t l th k o tp : Str)
    (H : ∀ v ∈ [t, l, th, k, o, tp], v ≠ [] ∧ trim v = v ∧ '\n' ∉ v ∧
      ∀ m ∈ PREDEFINED_KEYS, occursB (m ++ [':']) v = false) :
    deconstruct (construct (sixParts t l th k o tp)) = sixParts t l th k o tp := by
  obtain ⟨ht1, ht2, ht3, ht4⟩ := H t (by simp)
  obtain ⟨hl1, hl2, hl3, hl4⟩ := H l (by simp)
  obtain ⟨hth1, hth2, hth3, hth4⟩ := H th (by simp)
  obtain ⟨hk1, hk2, hk3, hk4⟩ := H k (by simp)
  obtain ⟨ho1, ho2, ho3, ho4⟩ := H o (by simp)
  obtain ⟨htp1, htp2, htp3, htp4⟩ := H tp (by simp)
  have hmem : ∀ m ∈ PREDEFINED_KEYS, m ∈ PREDEFINED_KEYS := fun m hm => hm
  have hot : ¬ OccursIn (str "TOPIC" ++ [':']) t :=
    occursB_false.mp (ht4 (str "TOPIC") (by simp [PREDEFINED_KEYS]))
  have hol : ¬ OccursIn (str "TOPIC" ++ [':']) l :=
    occursB_false.mp (hl4 (str "TOPIC") (by simp [PREDEFINED_KEYS]))
  have hoth : ¬ OccursIn (str "TOPIC" ++ [':']) th :=
    occursB_false.mp (hth4 (str "TOPIC") (by simp [PREDEFINED_KEYS]))
  have hok : ¬ OccursIn (str "TOPIC" ++ [':']) k :=
    occursB_false.mp (hk4 (str "TOPIC") (by simp [PREDEFINED_KEYS]))
  have hoo : ¬ OccursIn (str "TOPIC" ++ [':']) o :=
    occursB_false.mp (ho4 (str "TOPIC") (by simp [PREDEFINED_KEYS]))
  have hotp : ¬ OccursIn (str "TOPIC" ++ [':']) tp :=
    occursB_false.mp (htp4 (str "TOPIC") (by simp [PREDEFINED_KEYS]))
  rw [construct_full ht1 hl1 hth1 hk1 ho1 htp1]
  have hpne : (str "TOPIC" ++ [':'] : Str) ≠ [] := by simp
  have hpnl : '\n' ∉ (str "TOPIC" ++ [':'] : Str) := by decide
  have hshape : seg "TOOL" t ++ (seg "LANGUAGE" l ++ (seg "THOUGHT" th
        ++ (seg "KEYPHRASES" k ++ (seg "OBSERVATION" o ++ ((str "TOPIC" ++ [':']) ++ (' ' :: tp))))))
      = (seg "TOOL" t ++ (seg "LANGUAGE" l ++ (seg "THOUGHT" th
        ++ (seg "KEYPHRASES" k ++ seg "OBSERVATION" o))))
        ++ ((str "TOPIC" ++ [':']) ++ (' ' :: tp)) := by
    simp [List.append_assoc]
  rw [hshape]
  have hocc0 : OccursAt (str "TOPIC" ++ [':'])
      ((seg "TOOL" t ++ (seg "LANGUAGE" l ++ (seg "THOUGHT" th
        ++ (seg "KEYPHRASES" k ++ seg "OBSERVATION" o))))
        ++ ((str "TOPIC" ++ [':']) ++ (' ' :: tp)))
      (seg "TOOL" t ++ (seg "LANGUAGE" l ++ (seg "THOUGHT" th
        ++ (seg "KEYPHRASES" k ++ seg "OBSERVATION" o)))).length := by
    rw [OccursAt, List.drop_left]
    exact List.prefix_append _ _
  have hlater : ¬ OccursIn (str "TOPIC" ++ [':'])
      (((seg "TOOL" t ++ (seg "LANGUAGE" l ++ (seg "THOUGHT" th
        ++ (seg "KEYPHRASES" k ++ seg "OBSERVATION" o))))
        ++ ((str "TOPIC" ++ [':']) ++ (' ' :: tp))).drop
        ((seg "TOOL" t ++ (seg "LANGUAGE" l ++ (seg "THOUGHT" th
          ++ (seg "KEYPHRASES" k ++ seg "OBSERVATION" o)))).length + 1)) := by
    have hd : ((seg "TOOL" t ++ (seg "LANGUAGE" l ++ (seg "THOUGHT" th
          ++ (seg "KEYPHRASES" k ++ seg "OBSERVATION" o))))
          ++ ((str "TOPIC" ++ [':']) ++ (' ' :: tp))).drop
          ((seg "TOOL" t ++ (seg "LANGUAGE" l ++ (seg "THOUGHT" th
            ++ (seg "KEYPHRASES" k ++ seg "OBSERVATION" o)))).length + 1)
        = (((str "TOPIC" ++ [':']).drop 1) ++ [' ']) ++ (tp ++ []) := by
      rw [drop_append_ge (by omega), Nat.add_sub_cancel_left,
        List.drop_append_of_le_length (by simp)]
      simp [List.append_assoc]
    rw [hd]
    exact noOccSeg hpne hpnl (by decide) hotp htp3 (Or.inl rfl)
  have hanch := lastIndexOf_eq_some hpne hocc0 hlater
  rw [deconstruct_some hanch]
  have htopic : trim (replaceFirst (str "TOPIC" ++ [':']) []
      (((seg "TOOL" t ++ (seg "LANGUAGE" l ++ (seg "THOUGHT" th
        ++ (seg "KEYPHRASES" k ++ seg "OBSERVATION" o))))
        ++ ((str "TOPIC" ++ [':']) ++ (' ' :: tp))).drop
        (seg "TOOL" t ++ (seg "LANGUAGE" l ++ (seg "THOUGHT" th
          ++ (seg "KEYPHRASES" k ++ seg "OBSERVATION" o)))).length)) = tp := by
    rw [List.drop_left, replaceFirst_prefix hpne, trim_pad0 htp1 htp2]
  rw [htopic, List.take_left]
  have hrev : PREDEFINED_KEYS.reverse = [str "TOPIC", str "OBSERVATION", str "KEYPHRASES",
      str "THOUGHT", str "LANGUAGE", str "TOOL", str "INQUIRY"] := by rfl
  rw [hrev]
  have c5 := noOccSeg0 (X := str "OBSERVATION" ++ [':', ' ']) hpne hpnl (by decide) hoo ho3
  have c4 := noOccSeg0 (X := str "KEYPHRASES" ++ [':', ' ']) hpne hpnl (by decide) hok hk3
  have c3 := noOccSeg0 (X := str "THOUGHT" ++ [':', ' ']) hpne hpnl (by decide) hoth hth3
  have c2 := noOccSeg0 (X := str "LANGUAGE" ++ [':', ' ']) hpne hpnl (by decide) hol hl3
  have c1 := noOccSeg0 (X := str "TOOL" ++ [':', ' ']) hpne hpnl (by decide) hot ht3
  have h5 : ¬ OccursIn (str "TOPIC" ++ [':']) (seg "OBSERVATION" o) := by
    rw [seg_shape0]
    exact not_occursIn_append_nl hpne hpnl c5 (not_occursIn_nil hpne)
  have h4 : ¬ OccursIn (str "TOPIC" ++ [':']) (seg "KEYPHRASES" k ++ seg "OBSERVATION" o) := by
    rw [seg_cons_shape]
    exact not_occursIn_append_nl hpne hpnl c4 h5
  have h3 : ¬ OccursIn (str "TOPIC" ++ [':'])
      (seg "THOUGHT" th ++ (seg "KEYPHRASES" k ++ seg "OBSERVATION" o)) := by
    rw [seg_cons_shape]
    exact not_occursIn_append_nl hpne hpnl c3 h4
  have h2 : ¬ OccursIn (str "TOPIC" ++ [':'])
      (seg "LANGUAGE" l ++ (seg "THOUGHT" th ++ (seg "KEYPHRASES" k ++ seg "OBSERVATION" o))) := by
    rw [seg_cons_shape]
    exact not_occursIn_append_nl hpne hpnl c2 h3
  have h1 : ¬ OccursIn (str "TOPIC" ++ [':'])
      (seg "TOOL" t ++ (seg "LANGUAGE" l ++ (seg "THOUGHT" th
        ++ (seg "KEYPHRASES" k ++ seg "OBSERVATION" o)))) := by
    rw [seg_cons_shape]
    exact not_occursIn_append_nl hpne hpnl c1 h2
  rw [loop_skip h1]
  have e5 : seg "TOOL" t ++ (seg "LANGUAGE" l ++ (seg "THOUGHT" th
        ++ (seg "KEYPHRASES" k ++ seg "OBSERVATION" o)))
      = (seg "TOOL" t ++ (seg "LANGUAGE" l ++ (seg "THOUGHT" th ++ seg "KEYPHRASES" k)))
        ++ seg "OBSERVATION" o := by
    simp [List.append_assoc]
  rw [e5, loop_step' ho1 ho2 ho3
    (occursB_false.mp (ho4 (str "OBSERVATION") (by simp [PREDEFINED_KEYS])))
    (by decide) (by decide)]
  have e4 : seg "TOOL" t ++ (seg "LANGUAGE" l ++ (seg "THOUGHT" th ++ seg "KEYPHRASES" k))
      = (seg "TOOL" t ++ (seg "LANGUAGE" l ++ seg "THOUGHT" th)) ++ seg "KEYPHRASES" k := by
    simp [List.append_assoc]
  rw [e4, loop_step' hk1 hk2 hk3
    (occursB_false.mp (hk4 (str "KEYPHRASES") (by simp [PREDEFINED_KEYS])))
    (by decide) (by decide)]
  have e3 : seg "TOOL" t ++ (seg "LANGUAGE" l ++ seg "THOUGHT" th)
      = (seg "TOOL" t ++ seg "LANGUAGE" l) ++ seg "THOUGHT" th := by
    simp [List.append_assoc]
  rw [e3, loop_step' hth1 hth2 hth3
    (occursB_false.mp (hth4 (str "THOUGHT") (by simp [PREDEFINED_KEYS])))
    (by decide) (by decide)]
  rw [loop_step' hl1 hl2 hl3
    (occursB_false.mp (hl4 (str "LANGUAGE") (by simp [PREDEFINED_KEYS])))
    (by decide) (by decide)]
  have e1 : seg "TOOL" t = ([] : Str) ++ seg "TOOL" t := by
    rw [List.nil_append]
  rw [e1, loop_step' ht1 ht2 ht3
    (occursB_false.mp (ht4 (str "TOOL") (by simp [PREDEFINED_KEYS])))
    (by decide) (by decide)]
  rw [loop_skip (not_occursIn_nil (by simp))]
  rfl


/-- C1 counterexample: values may not contain newlines.  With
`thought = "a\nb"` (all six keys set, every value non-empty), the
round trip truncates `thought` to its first line. -/
theorem codec_roundtrip_cex :
    (deconstruct (construct (sixParts (str "Google.") (str "English.") (str "a\nb")
        (str "k.") (str "o.") (str "t.")))).thought = some (str "a")
    ∧ (sixParts (str "Google.") (str "English.") (str "a\nb")
        (str "k.") (str "o.") (str "t.")).thought = some (str "a\nb")
    ∧ some (str "a") ≠ some (str "a\nb") := by
  refine ⟨?_, rfl, by decide⟩
  set_option maxRecDepth 10000 in decide

/-- Witness for the amended C1 at concrete values. -/
theorem codec_roundtrip_witness :
    (∀ v ∈ [str "Google.", str "English.", str "Think hard.", str "Pitch Lake.",
        str "Large deposit.", str "geography."], v ≠ [] ∧ trim v = v ∧ '\n' ∉ v ∧
      ∀ m ∈ PREDEFINED_KEYS, occursB (m ++ [':']) v = false)
    ∧ deconstruct (construct (sixParts (str "Google.") (str "English.") (str "Think hard.")
        (str "Pitch Lake.") (str "Large deposit.") (str "geography.")))
      = sixParts (str "Google.") (str "English.") (str "Think hard.")
        (str "Pitch Lake.") (str "Large deposit.") (str "geography.") :=
  ⟨by set_option maxRecDepth 10000 in decide,
    codec_roundtrip _ _ _ _ _ _ (by set_option maxRecDepth 10000 in decide)⟩

end Gamal

namespace Gamal

/-! ## The pipeline (`reason`, `search`, `respond`) and its drivers

The three stages are `async` functions chained by `pipe`; HTTP effects
(`chat` completions, You.com search, `Date.now()`) are modelled by oracles
indexed by a draw counter, and the `enter`/`leave` delegates of
`evaluate`/`interact`/`poll` by an event list in the state (both delegate
variants push `{ name, timestamp }`; the extra `fields` of `leave` influence
nothing the claims mention and are not recorded).  `chat`'s message list
does not influence the oracle's reply, but is still built where a claim
mentions it (`respondMessages`).  A thrown JS error is an `Except.error`:
`llmError` for a non-2xx chat response, `searchError` for the exhausted
search retries, `typeError` for the `keyphrases.replace` call on
`undefined`. -/

/-- One You.com hit (`{ title, url, description = '', snippets = [] }`). -/
structure Hit where
  title : Str
  url : Str
  description : Str := []
  snippets : List Str := []
deriving Repr, DecidableEq

/-- One entry of `references` as built by `search`. -/
structure Ref where
  position : Nat
  title : Str
  url : Str
  snippet : Str
deriving Repr, DecidableEq

/-- A You.com response: HTTP ok flag and the `hits` array. -/
structure SearchResp where
  ok : Bool
  hits : List Hit
deriving Repr, DecidableEq

/-- A chat-completion outcome: the completion text, or a non-2xx error. -/
inductive ChatRes where
  | ok (completion : Str)
  | err
deriving Repr, DecidableEq

/-- One `{ name, timestamp }` record pushed by `enter`/`leave`. -/
structure Event where
  name : Str
  timestamp : Int
deriving Repr, DecidableEq

/-- One collapsed stage produced by `simplify` (duration in ms). -/
structure Stage2 where
  name : Str
  timestamp : Int
  duration : Int
deriving Repr, DecidableEq

/-- A conversation-history entry.  `evaluate` stores `references`;
`interact` omits the key (`none` here). -/
structure HistEntry where
  inquiry : Str
  thought : Option Str
  keyphrases : Option Str
  topic : Option Str
  references : Option (List Ref)
  answer : Option Str
  duration : Int
  stages : List Event
deriving Repr, DecidableEq

/-- The pipeline context.  A JS property that may be absent is an
`Option`; the `...context` spreads of the stages are modelled by
`jsOr` (an own property of `context` wins). -/
structure Ctx where
  inquiry : Str
  history : List HistEntry
  language : Option Str := none
  topic : Option Str := none
  thought : Option Str := none
  keyphrases : Option Str := none
  observation : Option Str := none
  references : Option (List Ref) := none
  answer : Option Str := none
deriving Repr, DecidableEq

/-- The outside world: chat completions, search responses and the clock,
in draw order. -/
structure Oracles where
  chatF : Nat → ChatRes
  searchF : Nat → SearchResp
  clockF : Nat → Int

/-- Draw counters and the `stages` event list of the current run. -/
structure St where
  chatN : Nat
  searchN : Nat
  clockN : Nat
  events : List Event
deriving Repr, DecidableEq

/-- The errors a pipeline stage can throw. -/
inductive Err where
  | llmError
  | searchError
  | typeError
deriving Repr, DecidableEq

/-- JS `{ key: b, ...ctx }` for one optional property whose value in `ctx`
is `a`: the spread wins when the property is present. -/
def jsOr (a b : Option Str) : Option Str :=
  match a with
  | some v => some v
  | none => b

/-- `enter`/`leave`: push `{ name, timestamp: Date.now() }`. -/
def pushEvent (O : Oracles) (name : Str) (st : St) : St :=
  { st with clockN := st.clockN + 1,
            events := st.events ++ [⟨name, O.clockF st.clockN⟩] }

/-- `chat(messages)`: one draw from the chat oracle; a non-2xx response
throws. -/
def chatCall (O : Oracles) (st : St) : Except Err (Str × St) :=
  match O.chatF st.chatN with
  | .ok c => .ok (c, { st with chatN := st.chatN + 1 })
  | .err => .error .llmError

/-- The assistant hint `['TOOL: Google.', 'LANGUAGE: '].join('\n')`. -/
def hint1 : Str := str "TOOL: Google.\nLANGUAGE: "

/-- The merge `{ language, topic, thought, keyphrases, observation,
...context }` returned by `reason`, followed by the `leave` event. -/
def finishReason (O : Oracles) (ctx : Ctx) (r : Parts) (st : St) : Except Err (Ctx × St) :=
  .ok ({ ctx with language := jsOr ctx.language r.language,
                  topic := jsOr ctx.topic r.topic,
                  thought := jsOr ctx.thought r.thought,
                  keyphrases := jsOr ctx.keyphrases r.keyphrases,
                  observation := jsOr ctx.observation r.observation },
       pushEvent O (str "Reason") st)

/-- `reason`: one chat draw, `breakdown` of `hint + completion`, and a
single retry (with the thought embedded in the new hint) when the
keyphrases came back absent or empty.  `undefined` interpolated into the
retry hint prints as the string `undefined`. -/
def reason (O : Oracles) (ctx : Ctx) (st : St) : Except Err (Ctx × St) :=
  let st := pushEvent O (str "Reason") st
  match chatCall O st with
  | .error e => .error e
  | .ok (completion, st) =>
    let result := breakdown hint1 completion
    if result.keyphrases = none ∨ result.keyphrases = some [] then
      let thoughtStr := match result.thought with
        | some s => s
        | none => str "undefined"
      let hint2 := str "TOOL: Google.\nTHOUGHT: " ++ thoughtStr ++ str "\nKEYPHRASES: "
      match chatCall O st with
      | .error e => .error e
      | .ok (completion2, st) => finishReason O ctx (breakdown hint2 completion2) st
    else finishReason O ctx result st

/-- `TOP_K` from the source. -/
def TOP_K : Nat := 3

/-- The query cleaning `keyphrases.replace(/\.$/, "").replace(/^"|"$/g, "")`. -/
def cleanQuery (ks : Str) : Str :=
  let s1 := if ks.getLast? = some '.' then ks.dropLast else ks
  let s2 := if s1.head? = some '"' then s1.drop 1 else s1
  if s2.getLast? = some '"' then s2.dropLast else s2

/-- `hits.slice(0, TOP_K).map((hit, i) => ...)`: positions are `i + 1` and
the snippet is `description + snippets.join('\n').substring(0, 1000)`. -/
def mkReferences (hits : List Hit) : List Ref :=
  (hits.take TOP_K).enum.map (fun p =>
    ⟨p.1 + 1, p.2.title, p.2.url, p.2.description ++ (joinNl p.2.snippets).take 1000⟩)

/-- The `leave('Search', { references })` and `{ ...context, references }`
exit of `search`. -/
def searchFinish (O : Oracles) (ctx : Ctx) (refs : List Ref) (st : St) : Except Err (Ctx × St) :=
  .ok ({ ctx with references := some refs }, pushEvent O (str "Search") st)

/-- `search(context, attempt)`: enter the stage (again on every retry — the
recursion re-enters without leaving), throw a TypeError when `keyphrases`
is absent, draw one search response, and retry while `attempt > 1` on a
non-2xx response or an empty `hits` array.  Exhaustion on HTTP failure
throws; exhaustion on empty hits leaves with `references = []`. -/
def search (O : Oracles) (ctx : Ctx) : Nat → St → Except Err (Ctx × St)
  | 0, st =>
    let st1 := pushEvent O (str "Search") st
    match ctx.keyphrases with
    | none => .error .typeError
    | some _ =>
      let resp := O.searchF st1.searchN
      let st2 := { st1 with searchN := st1.searchN + 1 }
      if resp.ok then
        if resp.hits = [] then searchFinish O ctx [] st2
        else searchFinish O ctx (mkReferences resp.hits) st2
      else .error .searchError
  | n + 1, st =>
    let st1 := pushEvent O (str "Search") st
    match ctx.keyphrases with
    | none => .error .typeError
    | some _ =>
      let resp := O.searchF st1.searchN
      let st2 := { st1 with searchN := st1.searchN + 1 }
      if resp.ok then
        if resp.hits = [] then
          if n + 1 > 1 then search O ctx n st2 else searchFinish O ctx [] st2
        else searchFinish O ctx (mkReferences resp.hits) st2
      else
        if n + 1 > 1 then search O ctx n st2 else .error .searchError

/-- The message list `respond` sends: empty (`'No references to cite'`)
unless `references` is a non-empty array. -/
def respondMessages (ctx : Ctx) : List (Str × Str) :=
  match ctx.references with
  | some refs =>
    if refs = [] then []
    else
      [(str "system", joinNl (refs.map (fun r =>
          str "[citation:" ++ natDigits r.position ++ str "] " ++ r.title
            ++ str " - " ++ r.snippet))),
       (str "user", ctx.inquiry)]
  | none => []

/-- `respond`: one chat draw for the answer, returned as
`{ answer, ...context }`. -/
def respond (O : Oracles) (ctx : Ctx) (st : St) : Except Err (Ctx × St) :=
  let st1 := pushEvent O (str "Respond") st
  match chatCall O st1 with
  | .error e => .error e
  | .ok (answer, st2) =>
    .ok ({ ctx with answer := jsOr ctx.answer (some answer) },
         pushEvent O (str "Respond") st2)

/-- `pipe(reason, search, respond)` applied to a context. -/
def pipeline (O : Oracles) (ctx : Ctx) (st : St) : Except Err (Ctx × St) :=
  match reason O ctx st with
  | .error e => .error e
  | .ok (c1, st1) =>
    match search O c1 3 st1 with
    | .error e => .error e
    | .ok (c2, st2) => respond O c2 st2

/-- The fresh context both drivers build: `{ inquiry, history, delegates }`. -/
def mkCtx (inquiry : Str) (history : List HistEntry) : Ctx :=
  { inquiry := inquiry, history := history }

/-- The `User:` branch of `evaluate`'s line handler: run the pipeline and,
only after it resolves, push the completed entry (with `references`) onto
the history.  A thrown error propagates (the driver's catch aborts). -/
def evaluateUser (O : Oracles) (history : List HistEntry) (inquiry : Str) (st : St) :
    Except Err (List HistEntry × St) :=
  let start := O.clockF st.clockN
  let st1 : St := { st with clockN := st.clockN + 1 }
  match pipeline O (mkCtx inquiry history) st1 with
  | .error e => .error e
  | .ok (c, st2) =>
    let stop := O.clockF st2.clockN
    let st3 : St := { st2 with clockN := st2.clockN + 1 }
    .ok (history ++ [⟨inquiry, c.thought, c.keyphrases, c.topic, c.references, c.answer,
      stop - start, st2.events⟩], st3)

/-- The question branch of `interact`'s `qa` loop: same shape, but the
pushed entry has no `references` key. -/
def interactStep (O : Oracles) (history : List HistEntry) (inquiry : Str) (st : St) :
    Except Err (List HistEntry × St) :=
  let start := O.clockF st.clockN
  let st1 : St := { st with clockN := st.clockN + 1 }
  match pipeline O (mkCtx inquiry history) st1 with
  | .error e => .error e
  | .ok (c, st2) =>
    let stop := O.clockF st2.clockN
    let st3 : St := { st2 with clockN := st2.clockN + 1 }
    .ok (history ++ [⟨inquiry, c.thought, c.keyphrases, c.topic, none, c.answer,
      stop - start, st2.events⟩], st3)

/-- `simplify`: pair every odd-indexed stage with its predecessor, compute
the duration from the two timestamps, and keep only the odd indices (the
even-indexed entries, which `simplify` leaves durationless and then
filters away, carry duration 0 here). -/
def simplify (stages : List Event) : List Stage2 :=
  ((stages.enum.map (fun p =>
      if p.1 % 2 ≠ 0 then
        (p.1, (⟨p.2.name, p.2.timestamp,
          p.2.timestamp - (stages.getD (p.1 - 1) ⟨[], 0⟩).timestamp⟩ : Stage2))
      else (p.1, (⟨p.2.name, p.2.timestamp, 0⟩ : Stage2)))).filter
    (fun q => q.1 % 2 ≠ 0)).map (fun q => q.2)

end Gamal

namespace Gamal

/-- Shared by the counterexamples: the events of a successful run. -/
def evsOf : Except Err (Ctx × St) → List Event
  | .ok (_, st) => st.events
  | .error _ => []

/-- Projections of a stage outcome, for stating results about successful
runs without naming the whole final state. -/
def refsOf : Except Err (Ctx × St) → Option (List Ref)
  | .ok (c, _) => c.references
  | .error _ => none

/-- The search-draw counter after an outcome (0 on error). -/
def searchNOf : Except Err (Ctx × St) → Nat
  | .ok (_, st) => st.searchN
  | .error _ => 0

theorem history_error_eval {O : Oracles} {history : List HistEntry} {inquiry : Str}
    {st : St} {e : Err}
    (h : pipeline O (mkCtx inquiry history) { st with clockN := st.clockN + 1 } = .error e) :
    evaluateUser O history inquiry st = .error e := by
  simp only [evaluateUser]
  rw [h]

theorem history_ok_eval {O : Oracles} {history : List HistEntry} {inquiry : Str}
    {st : St} {c : Ctx} {st2 : St}
    (h : pipeline O (mkCtx inquiry history) { st with clockN := st.clockN + 1 } = .ok (c, st2)) :
    evaluateUser O history inquiry st
      = .ok (history ++ [⟨inquiry, c.thought, c.keyphrases, c.topic, c.references, c.answer,
          O.clockF st2.clockN - O.clockF st.clockN, st2.events⟩],
        { st2 with clockN := st2.clockN + 1 }) := by
  simp only [evaluateUser]
  rw [h]

/-- C9: a history entry is appended only after `respond` completes.  When
any stage throws, both drivers leave the history untouched (the error
propagates); when the pipeline completes, exactly one entry is appended,
fully populated from the completed context (with `references` in
`evaluate`, without in `interact`). -/
theorem history_append_after_respond (O : Oracles) (history : List HistEntry)
    (inquiry : Str) (st : St) :
    (∀ e, pipeline O (mkCtx inquiry history) { st with clockN := st.clockN + 1 } = .error e →
      evaluateUser O history inquiry st = .error e
      ∧ interactStep O history inquiry st = .error e)
    ∧ (∀ c st2, pipeline O (mkCtx inquiry history) { st with clockN := st.clockN + 1 } = .ok (c, st2) →
      evaluateUser O history inquiry st
        = .ok (history ++ [⟨inquiry, c.thought, c.keyphrases, c.topic, c.references, c.answer,
            O.clockF st2.clockN - O.clockF st.clockN, st2.events⟩],
          { st2 with clockN := st2.clockN + 1 })
      ∧ interactStep O history inquiry st
        = .ok (history ++ [⟨inquiry, c.thought, c.keyphrases, c.topic, none, c.answer,
            O.clockF st2.clockN - O.clockF st.clockN, st2.events⟩],
          { st2 with clockN := st2.clockN + 1 })) := by
  constructor
  · intro e h
    constructor
    · simp only [evaluateUser]
      rw [h]
    · simp only [interactStep]
      rw [h]
  · intro c st2 h
    constructor
    · simp only [evaluateUser]
      rw [h]
    · simp only [interactStep]
      rw [h]

/-- C5: the retry policy of `search`.  At most three attempts are made;
a non-2xx response or an empty `hits` array triggers a retry; three
consecutive HTTP failures throw `SearchError`; three empty-hit responses
return normally with `references = []`; a first good response is not
retried (exactly one fetch). -/
theorem search_retry_policy (O : Oracles) (ctx : Ctx) (ks : Str) (st : St)
    (hk : ctx.keyphrases = some ks) :
    ((O.searchF st.searchN).ok = false → (O.searchF (st.searchN + 1)).ok = false →
      (O.searchF (st.searchN + 2)).ok = false →
      search O ctx 3 st = .error .searchError)
    ∧ ((O.searchF st.searchN).ok = true → (O.searchF st.searchN).hits = [] →
      (O.searchF (st.searchN + 1)).ok = true → (O.searchF (st.searchN + 1)).hits = [] →
      (O.searchF (st.searchN + 2)).ok = true → (O.searchF (st.searchN + 2)).hits = [] →
      (search O ctx 3 st).isOk = true
        ∧ refsOf (search O ctx 3 st) = some []
        ∧ searchNOf (search O ctx 3 st) = st.searchN + 3)
    ∧ ((O.searchF st.searchN).ok = true → (O.searchF st.searchN).hits ≠ [] →
      (search O ctx 3 st).isOk = true
        ∧ refsOf (search O ctx 3 st) = some (mkReferences (O.searchF st.searchN).hits)
        ∧ searchNOf (search O ctx 3 st) = st.searchN + 1)
    ∧ ((O.searchF st.searchN).ok = false →
      (O.searchF (st.searchN + 1)).ok = true → (O.searchF (st.searchN + 1)).hits ≠ [] →
      (search O ctx 3 st).isOk = true
        ∧ refsOf (search O ctx 3 st) = some (mkReferences (O.searchF (st.searchN + 1)).hits)
        ∧ searchNOf (search O ctx 3 st) = st.searchN + 2)
    ∧ ((O.searchF st.searchN).ok = true → (O.searchF st.searchN).hits = [] →
      (O.searchF (st.searchN + 1)).ok = true → (O.searchF (st.searchN + 1)).hits ≠ [] →
      (search O ctx 3 st).isOk = true
        ∧ refsOf (search O ctx 3 st) = some (mkReferences (O.searchF (st.searchN + 1)).hits)
        ∧ searchNOf (search O ctx 3 st) = st.searchN + 2) := by
  refine ⟨?_, ?_, ?_, ?_, ?_⟩
  · intro h1 h2 h3
    simp [search, pushEvent, hk, h1, h2, h3]
  · intro h1 h2 h3 h4 h5 h6
    refine ⟨?_, ?_, ?_⟩ <;>
      simp [search, pushEvent, searchFinish, refsOf, searchNOf, Except.isOk, Except.toBool, hk, h1, h2, h3, h4, h5, h6]
  · intro h1 h2
    refine ⟨?_, ?_, ?_⟩ <;>
      simp [search, pushEvent, searchFinish, refsOf, searchNOf, Except.isOk, Except.toBool, hk, h1, h2]
  · intro h1 h2 h3
    refine ⟨?_, ?_, ?_⟩ <;>
      simp [search, pushEvent, searchFinish, refsOf, searchNOf, Except.isOk, Except.toBool, hk, h1, h2, h3]
  · intro h1 h2 h3 h4
    refine ⟨?_, ?_, ?_⟩ <;>
      simp [search, pushEvent, searchFinish, refsOf, searchNOf, Except.isOk, Except.toBool, hk, h1, h2, h3, h4]

/-- The thrown error of an outcome, if any. -/
def errOf : Except Err (Ctx × St) → Option Err
  | .ok _ => none
  | .error e => some e

theorem errOf_eq {x : Except Err (Ctx × St)} {e : Err} (h : errOf x = some e) :
    x = .error e := by
  cases x with
  | ok v => simp [errOf] at h
  | error f =>
    simp only [errOf, Option.some.injEq] at h
    rw [h]

theorem isOk_exists {x : Except Err (Ctx × St)} (h : x.isOk = true) :
    ∃ c st2, x = .ok (c, st2) := by
  cases x with
  | ok v => exact ⟨v.1, v.2, rfl⟩
  | error f => simp [Except.isOk, Except.toBool] at h

/-- The answer of a successful outcome. -/
def answerOf : Except Err (Ctx × St) → Option Str
  | .ok (c, _) => c.answer
  | .error _ => none

/-- The search stage followed by the respond stage (the pipeline suffix
after `reason`). -/
def searchRespond (O : Oracles) (ctx : Ctx) (st : St) : Except Err (Ctx × St) :=
  match search O ctx 3 st with
  | .error e => .error e
  | .ok (c2, st2) => respond O c2 st2

/-- `simplify` on a six-event list, in closed form. -/
theorem simplify_six (e0 e1 e2 e3 e4 e5 : Event) :
    simplify [e0, e1, e2, e3, e4, e5]
      = [⟨e1.name, e1.timestamp, e1.timestamp - e0.timestamp⟩,
         ⟨e3.name, e3.timestamp, e3.timestamp - e2.timestamp⟩,
         ⟨e5.name, e5.timestamp, e5.timestamp - e4.timestamp⟩] := by
  simp [simplify, List.enum, List.enumFrom, List.getD]

/-- The initial state: counters zero, no recorded events. -/
def st0 : St := ⟨0, 0, 0, []⟩

/-- A one-hit search result for the concrete runs. -/
def hitA : Hit := ⟨str "T", str "u", str "d", []⟩

/-- Chat oracle of the C3 counterexample run: a well-formed reasoning
completion, then the answer. -/
def c3chat : Nat → ChatRes
  | 0 => .ok (str "English.\nTHOUGHT: x.\nKEYPHRASES: q.\nOBSERVATION: obs.\nTOPIC: t.")
  | 1 => .ok (str "Ans.")
  | _ => .err

/-- Search oracle of the C3 counterexample run: one HTTP failure, then a
good response. -/
def c3search : Nat → SearchResp
  | 0 => ⟨false, []⟩
  | _ => ⟨true, [hitA]⟩

/-- Oracles of the C3 counterexample run. -/
def Oc3 : Oracles := ⟨c3chat, c3search, fun n => (n : Int)⟩

/-- C3 counterexample: a completed run with one search retry records SEVEN
stage events — the retry re-enters `Search` without leaving — so the event
sequence has odd length and `enter`/`leave` are not paired one-to-one. -/
theorem stage_pairing_cex :
    (pipeline Oc3 (mkCtx (str "Q") []) st0).isOk = true
    ∧ (evsOf (pipeline Oc3 (mkCtx (str "Q") []) st0)).map Event.name
      = [str "Reason", str "Reason", str "Search", str "Search", str "Search",
         str "Respond", str "Respond"]
    ∧ (evsOf (pipeline Oc3 (mkCtx (str "Q") []) st0)).length % 2 = 1 := by
  refine ⟨?_, ?_, ?_⟩
  · set_option maxRecDepth 10000 in decide
  · set_option maxRecDepth 10000 in decide
  · set_option maxRecDepth 10000 in decide

/-- C3 (amended): on a run whose search succeeds on the first attempt (and
whose chat calls succeed, with usable keyphrases on the first reasoning
round), the event sequence is the six paired enter/leave events in stage
order, and `simplify` collapses them to one entry per stage with
non-negative duration under a monotone clock. -/
theorem stage_pairing (O : Oracles) (inq : Str) (hist : List HistEntry) (s : St)
    (hev : s.events = [])
    (c0 a : Str) (hc0 : O.chatF s.chatN = .ok c0) (ha : O.chatF (s.chatN + 1) = .ok a)
    (ks : Str) (hks : (breakdown hint1 c0).keyphrases = some ks) (hksne : ks ≠ [])
    (hok : (O.searchF s.searchN).ok = true) (hhits : (O.searchF s.searchN).hits ≠ [])
    (hmono : ∀ i j : Nat, i ≤ j → O.clockF i ≤ O.clockF j) :
    (pipeline O (mkCtx inq hist) s).isOk = true
    ∧ (evsOf (pipeline O (mkCtx inq hist) s)).map Event.name
      = [str "Reason", str "Reason", str "Search", str "Search", str "Respond", str "Respond"]
    ∧ (evsOf (pipeline O (mkCtx inq hist) s)).length % 2 = 0
    ∧ (simplify (evsOf (pipeline O (mkCtx inq hist) s))).map (fun e => e.name)
      = [str "Reason", str "Search", str "Respond"]
    ∧ ∀ e ∈ simplify (evsOf (pipeline O (mkCtx inq hist) s)), 0 ≤ e.duration := by
  have hrun : pipeline O (mkCtx inq hist) s
      = .ok ({ mkCtx inq hist with
                language := (breakdown hint1 c0).language,
                topic := (breakdown hint1 c0).topic,
                thought := (breakdown hint1 c0).thought,
                keyphrases := some ks,
                observation := (breakdown hint1 c0).observation,
                references := some (mkReferences (O.searchF s.searchN).hits),
                answer := some a },
             { chatN := s.chatN + 2, searchN := s.searchN + 1, clockN := s.clockN + 6,
               events := [⟨str "Reason", O.clockF s.clockN⟩,
                 ⟨str "Reason", O.clockF (s.clockN + 1)⟩,
                 ⟨str "Search", O.clockF (s.clockN + 2)⟩,
                 ⟨str "Search", O.clockF (s.clockN + 3)⟩,
                 ⟨str "Respond", O.clockF (s.clockN + 4)⟩,
                 ⟨str "Respond", O.clockF (s.clockN + 5)⟩] }) := by
    simp [pipeline, reason, search, respond, chatCall, pushEvent, finishReason,
      searchFinish, mkCtx, jsOr, hc0, ha, hks, hksne, hok, hhits, hev]
  rw [hrun]
  refine ⟨?_, ?_, ?_, ?_, ?_⟩
  · simp [Except.isOk, Except.toBool]
  · simp [evsOf]
  · simp [evsOf]
  · simp [evsOf, simplify, List.enum, List.enumFrom, List.getD]
  · intro e he
    simp only [evsOf] at he
    rw [simplify_six] at he
    simp only [List.mem_cons, List.not_mem_nil, or_false] at he
    rcases he with he | he | he <;>
      · subst he
        simp only [Int.sub_nonneg]
        exact hmono _ _ (by omega)

/-- Chat oracle of the C6 counterexample run: the first completion has no
`KEYPHRASES:` label and a thought containing an inner `TOPIC:`; the retry
completion is empty, so the retry hint parses with the anchor inside the
thought and the keyphrases end up absent. -/
def c6chat : Nat → ChatRes
  | 0 => .ok (str "English.\nTHOUGHT: x TOPIC: mid y\nTOPIC: z\nTOPIC: w")
  | 1 => .ok (str "")
  | _ => .err

/-- Oracles of the C6 counterexample run (search never reached). -/
def Oc6 : Oracles := ⟨c6chat, fun _ => ⟨true, [hitA]⟩, fun n => (n : Int)⟩

/-- C6 counterexample: when the keyphrases are *absent* (not merely empty)
after the reason retry, the pipeline does NOT proceed — `search` crashes
with a TypeError on `keyphrases.replace`, aborting the run. -/
theorem empty_keyphrases_cex :
    pipeline Oc6 (mkCtx (str "Q") []) st0 = .error .typeError := by
  apply errOf_eq
  set_option maxRecDepth 10000 in decide

/-- C6 (amended): keyphrases that are present but *empty* are recoverable:
the cleaned query is the empty string, `search` proceeds (returning
`references = []` after its empty-hit retries), and `respond` degrades to
an empty message list but still produces the oracle's answer. -/
theorem empty_keyphrases_recoverable (O : Oracles) (ctx : Ctx) (st : St)
    (hk : ctx.keyphrases = some []) (hans : ctx.answer = none)
    (h1 : (O.searchF st.searchN).ok = true) (h2 : (O.searchF st.searchN).hits = [])
    (h3 : (O.searchF (st.searchN + 1)).ok = true) (h4 : (O.searchF (st.searchN + 1)).hits = [])
    (h5 : (O.searchF (st.searchN + 2)).ok = true) (h6 : (O.searchF (st.searchN + 2)).hits = [])
    (a : Str) (ha : O.chatF st.chatN = .ok a) :
    cleanQuery [] = []
    ∧ (searchRespond O ctx st).isOk = true
    ∧ refsOf (searchRespond O ctx st) = some []
    ∧ answerOf (searchRespond O ctx st) = some a
    ∧ respondMessages { ctx with references := some [] } = [] := by
  refine ⟨rfl, ?_, ?_, ?_, ?_⟩
  · simp [searchRespond, search, respond, chatCall, pushEvent, searchFinish,
      jsOr, Except.isOk, Except.toBool, hk, hans, h1, h2, h3, h4, h5, h6, ha]
  · simp [searchRespond, search, respond, chatCall, pushEvent, searchFinish,
      jsOr, refsOf, hk, hans, h1, h2, h3, h4, h5, h6, ha]
  · simp [searchRespond, search, respond, chatCall, pushEvent, searchFinish,
      jsOr, answerOf, hk, hans, h1, h2, h3, h4, h5, h6, ha]
  · simp [respondMessages]

/-- Oracles of the witness runs: two good chat completions, a good first
search response, unit-speed clock. -/
def Ow : Oracles :=
  ⟨c3chat, fun _ => ⟨true, [hitA]⟩, fun n => (n : Int)⟩

/-- Oracles that always fail: every chat call is non-2xx. -/
def Obad : Oracles := ⟨fun _ => .err, fun _ => ⟨false, []⟩, fun n => (n : Int)⟩

/-- Oracles whose search always returns ok with no hits. -/
def Oempty : Oracles := ⟨c3chat, fun _ => ⟨true, []⟩, fun n => (n : Int)⟩

/-- Witness for C3 at concrete oracles. -/
theorem stage_pairing_witness :
    (pipeline Ow (mkCtx (str "Q") []) st0).isOk = true
    ∧ (evsOf (pipeline Ow (mkCtx (str "Q") []) st0)).map Event.name
      = [str "Reason", str "Reason", str "Search", str "Search", str "Respond", str "Respond"]
    ∧ (simplify (evsOf (pipeline Ow (mkCtx (str "Q") []) st0))).map (fun e => e.name)
      = [str "Reason", str "Search", str "Respond"] := by
  have h := stage_pairing Ow (str "Q") [] st0 rfl
    (str "English.\nTHOUGHT: x.\nKEYPHRASES: q.\nOBSERVATION: obs.\nTOPIC: t.") (str "Ans.")
    rfl rfl (str "q.") (by set_option maxRecDepth 10000 in decide) (by decide)
    rfl (by decide) (fun i j hij => Int.ofNat_le.mpr hij)
  exact ⟨h.1, h.2.1, h.2.2.2.1⟩

/-- Witness for C5 at concrete oracles: the all-fail path throws
`SearchError` and the first-good path fetches exactly once. -/
theorem search_retry_policy_witness :
    search Obad { mkCtx (str "Q") [] with keyphrases := some (str "q") } 3 st0
      = .error .searchError
    ∧ (search Ow { mkCtx (str "Q") [] with keyphrases := some (str "q") } 3 st0).isOk = true
    ∧ searchNOf (search Ow { mkCtx (str "Q") [] with keyphrases := some (str "q") } 3 st0) = 1 := by
  have hbad := (search_retry_policy Obad { mkCtx (str "Q") [] with keyphrases := some (str "q") }
    (str "q") st0 rfl).1 rfl rfl rfl
  have hgood := (search_retry_policy Ow { mkCtx (str "Q") [] with keyphrases := some (str "q") }
    (str "q") st0 rfl).2.2.1 rfl (by decide)
  exact ⟨hbad, hgood.1, hgood.2.2⟩

/-- Witness for the amended C6 at concrete oracles. -/
theorem empty_keyphrases_recoverable_witness :
    (searchRespond Oempty { mkCtx (str "Q") [] with keyphrases := some [] } st0).isOk = true
    ∧ refsOf (searchRespond Oempty { mkCtx (str "Q") [] with keyphrases := some [] } st0)
      = some []
    ∧ answerOf (searchRespond Oempty { mkCtx (str "Q") [] with keyphrases := some [] } st0)
      = some (str "English.\nTHOUGHT: x.\nKEYPHRASES: q.\nOBSERVATION: obs.\nTOPIC: t.") := by
  have h := empty_keyphrases_recoverable Oempty
    { mkCtx (str "Q") [] with keyphrases := some [] } st0 rfl rfl
    rfl rfl rfl rfl rfl rfl
    (str "English.\nTHOUGHT: x.\nKEYPHRASES: q.\nOBSERVATION: obs.\nTOPIC: t.") rfl
  exact ⟨h.2.1, h.2.2.1, h.2.2.2.1⟩

/-- Witness for C9 at concrete oracles: the error path leaves the history
untouched and the success path appends the completed entry. -/
theorem history_append_after_respond_witness :
    evaluateUser Obad [] (str "Q") st0 = .error .llmError
    ∧ (evaluateUser Ow [] (str "Q") st0).isOk = true
    ∧ (interactStep Ow [] (str "Q") st0).isOk = true := by
  have hbad := ((history_append_after_respond Obad [] (str "Q") st0).1 .llmError
    (errOf_eq (by set_option maxRecDepth 10000 in decide))).1
  obtain ⟨c, st2, hok⟩ := isOk_exists
    (x := pipeline Ow (mkCtx (str "Q") []) { st0 with clockN := st0.clockN + 1 })
    (by set_option maxRecDepth 10000 in decide)
  have hgood := (history_append_after_respond Ow [] (str "Q") st0).2 c st2 hok
  refine ⟨hbad, ?_, ?_⟩
  · rw [hgood.1]
    rfl
  · rw [hgood.2]
    rfl

end Gamal
